import Mathlib

/-! NFA-based lexer (`NFALexer.cpp`): shallow embedding and verification.

The development embeds the automaton (`NFAState`, `NFATransition`, `NFA`), the
closure/move engine, the longest-match driver and the `Lexer` facade of
`NFALexer.cpp` and proves properties of them.

Modelling conventions:
* `std::string` is `List Char`, `char` is `Char`; the epsilon label is the
  character with code 0, exactly as in `NFATransition`'s default argument.
* `std::set<int>` is a strictly increasing `List Int` (iteration order of the
  C++ container), built with `set_insert`.
* `std::shared_ptr<NFAState>` is the state value itself: states are never
  mutated after they are created.
* `states[id]` is an out-of-range access when `id` is not an index; the model
  returns `none` there, so every function that indexes is `Option`-valued.
* `while` loops whose trip count is not structurally evident take a fuel
  argument and return `none` when it runs out; the fuel supplied by the
  callers is proved sufficient.
* `position`, `line`, `column` are `Nat` (the C++ `int`s only count upwards
  from 0 or 1; inputs are assumed shorter than `2^31` characters).
-/

namespace NFALexer

/-- Token categories, `enum class TokenType`. -/
inductive TokenType where
  | IDENTIFIER
  | REGISTER
  | NUMBER
  | LPAREN
  | RPAREN
  | COMMA
  | COLON
  | DOT
  | END_OF_LINE
  | END_OF_FILE
  | UNKNOWN
  deriving DecidableEq, Repr

/-- A token, `struct Token`. -/
structure Token where
  type : TokenType
  value : List Char
  line : Nat
  column : Nat
  deriving DecidableEq, Repr

/-- An automaton state, `struct NFAState`. -/
structure NFAState where
  id : Int
  is_accepting : Bool
  accepting_type : TokenType
  deriving DecidableEq, Repr

/-- The label of an epsilon transition: `char c = 0`. -/
def epsilon : Char := Char.ofNat 0

/-- A transition, `struct NFATransition` (`from_` and `to_` are the fields `from` and `to`). -/
structure NFATransition where
  from_ : NFAState
  to_ : NFAState
  input : Char
  deriving DecidableEq, Repr

/-- The automaton, the data members of `class NFA`. -/
structure NFA where
  start_state : NFAState
  states : List NFAState
  transitions : List NFATransition
  deriving DecidableEq, Repr

/-- Ordered insertion without duplicates: `std::set<int>::insert`. -/
def set_insert (x : Int) : List Int → List Int
  | [] => [x]
  | y :: ys =>
    if x < y then x :: y :: ys
    else if x = y then y :: ys
    else y :: set_insert x ys

/-- Range insertion `closure.insert(first, last)`. -/
def set_insert_all (xs : List Int) (s : List Int) : List Int :=
  xs.foldl (fun acc x => set_insert x acc) s

/-- The access `states[id]`; `none` when `id` is not a valid index. -/
def state_at (nfa : NFA) (id : Int) : Option NFAState :=
  if id < 0 then none else nfa.states[id.toNat]?

/-- The states pushed while expanding `current` in `epsilon_closure`: the targets of
the epsilon transitions leaving `current`, in transition order. -/
def epsilon_targets (transitions : List NFATransition) (current : NFAState) : List NFAState :=
  (transitions.filter (fun trans => trans.from_.id == current.id && trans.input == epsilon)).map
    (fun trans => trans.to_)

/-- The `while (!stack.empty())` loop of `epsilon_closure(state)`. The head of the
list is the back of the C++ vector. -/
def epsilon_closure_loop (transitions : List NFATransition) :
    Nat → List Int → List NFAState → Option (List Int)
  | _, closure, [] => some closure
  | 0, _, _ :: _ => none
  | fuel + 1, closure, current :: stack =>
    if current.id ∈ closure then
      epsilon_closure_loop transitions fuel closure stack
    else
      epsilon_closure_loop transitions fuel (set_insert current.id closure)
        ((epsilon_targets transitions current).reverse ++ stack)

/-- The single-state overload `NFA::epsilon_closure(std::shared_ptr<NFAState>)`. -/
def epsilon_closure (nfa : NFA) (state : NFAState) : Option (List Int) :=
  epsilon_closure_loop nfa.transitions (nfa.transitions.length + 1) [] [state]

/-- The loop of the set overload of `epsilon_closure`, accumulating into `closure`. -/
def epsilon_closure_ids (nfa : NFA) : List Int → List Int → Option (List Int)
  | closure, [] => some closure
  | closure, id :: rest =>
    match state_at nfa id with
    | none => none
    | some s =>
      match epsilon_closure nfa s with
      | none => none
      | some s_closure => epsilon_closure_ids nfa (set_insert_all s_closure closure) rest

/-- The set overload `NFA::epsilon_closure(const std::set<int>&)`. -/
def epsilon_closure_set (nfa : NFA) (state_ids : List Int) : Option (List Int) :=
  epsilon_closure_ids nfa [] state_ids

/-- The transition scan `NFA::move`. -/
def move (nfa : NFA) (state_ids : List Int) (c : Char) : List Int :=
  state_ids.foldl
    (fun new_states id =>
      nfa.transitions.foldl
        (fun acc trans =>
          if trans.from_.id == id && trans.input == c then set_insert trans.to_.id acc else acc)
        new_states)
    []

/-- The scan `for (int id : current_states) if (states[id]->is_accepting) ...` shared by
`accepts` and `longest_match`: the first accepting state in iteration order, if any. -/
def find_accepting (nfa : NFA) : List Int → Option (Option NFAState)
  | [] => some none
  | id :: rest =>
    match state_at nfa id with
    | none => none
    | some s => if s.is_accepting then some (some s) else find_accepting nfa rest

/-- The `for (char c : input)` loop of `accepts`. -/
def accepts_loop (nfa : NFA) : List Int → List Char → Option (List Int)
  | current_states, [] => some current_states
  | current_states, c :: cs =>
    match epsilon_closure_set nfa (move nfa current_states c) with
    | none => none
    | some next => if next.isEmpty then some next else accepts_loop nfa next cs

/-- The body of `accepts` after the initial closure has been computed. -/
def accepts_from (nfa : NFA) (current_states : List Int) (input : List Char)
    (token_type : TokenType) : Option (Bool × TokenType) :=
  match accepts_loop nfa current_states input with
  | none => none
  | some final =>
    match find_accepting nfa final with
    | none => none
    | some (some s) => some (true, s.accepting_type)
    | some none => some (false, token_type)

/-- The function `NFA::accepts`; the second component is the out-parameter `token_type`. -/
def accepts (nfa : NFA) (input : List Char) (token_type : TokenType) :
    Option (Bool × TokenType) :=
  match epsilon_closure nfa nfa.start_state with
  | none => none
  | some current_states => accepts_from nfa current_states input token_type

/-- The `for (pos = start_pos; pos < input.size(); pos++)` loop of `longest_match`; the
first argument is the unread part `input[pos..]`. Returns `(last_accept_pos, last_accept_type)`. -/
def longest_match_loop (nfa : NFA) :
    List Char → Nat → List Int → Nat → TokenType → Option (Nat × TokenType)
  | [], _, _, last_accept_pos, last_accept_type => some (last_accept_pos, last_accept_type)
  | c :: rest, pos, current_states, last_accept_pos, last_accept_type =>
    match epsilon_closure_set nfa (move nfa current_states c) with
    | none => none
    | some next =>
      if next.isEmpty then some (last_accept_pos, last_accept_type)
      else
        match find_accepting nfa next with
        | none => none
        | some (some s) => longest_match_loop nfa rest (pos + 1) next (pos + 1) s.accepting_type
        | some none => longest_match_loop nfa rest (pos + 1) next last_accept_pos last_accept_type

/-- The function `NFA::longest_match`. -/
def longest_match (nfa : NFA) (input : List Char) (start_pos : Nat) :
    Option (List Char × TokenType) :=
  match epsilon_closure nfa nfa.start_state with
  | none => none
  | some current_states =>
    match longest_match_loop nfa (input.drop start_pos) start_pos current_states start_pos
        TokenType.UNKNOWN with
    | none => none
    | some (last_accept_pos, last_accept_type) =>
      if last_accept_pos > start_pos then
        some ((input.drop start_pos).take (last_accept_pos - start_pos), last_accept_type)
      else some ([], TokenType.UNKNOWN)

/-- The constructor `NFA::NFA()`. -/
def NFA.new : NFA :=
  let start_state : NFAState := ⟨0, false, TokenType.UNKNOWN⟩
  { start_state := start_state, states := [start_state], transitions := [] }

/-- The method `NFA::add_state`. -/
def add_state (nfa : NFA) (state : NFAState) : NFA :=
  { nfa with states := nfa.states ++ [state] }

/-- The method `NFA::add_transition`. -/
def add_transition (nfa : NFA) (from_ to_ : NFAState) (c : Char) : NFA :=
  { nfa with transitions := nfa.transitions ++ [⟨from_, to_, c⟩] }

/-- The characters `lo, lo+1, ..., hi` visited by `for (char c = lo; c <= hi; c++)`. -/
def char_range (lo hi : Char) : List Char :=
  (List.range (hi.toNat + 1 - lo.toNat)).map (fun i => Char.ofNat (lo.toNat + i))

/-- The loop `for (char c = lo; c <= hi; c++) nfa.add_transition(from, to, c);`. -/
def add_range (nfa : NFA) (from_ to_ : NFAState) (lo hi : Char) : NFA :=
  (char_range lo hi).foldl (fun acc c => add_transition acc from_ to_ c) nfa

/-- The method `Lexer::build_nfa`, applied to the automaton made by `NFA::NFA()`. -/
def build_nfa (nfa : NFA) : NFA :=
  let id_start : NFAState := ⟨1, false, TokenType.UNKNOWN⟩
  let id_accept : NFAState := ⟨2, true, TokenType.IDENTIFIER⟩
  let nfa := add_state nfa id_start
  let nfa := add_state nfa id_accept
  let nfa := add_range nfa id_start id_accept 'a' 'z'
  let nfa := add_range nfa id_start id_accept 'A' 'Z'
  let nfa := add_transition nfa id_start id_accept '_'
  let nfa := add_range nfa id_accept id_accept 'a' 'z'
  let nfa := add_range nfa id_accept id_accept 'A' 'Z'
  let nfa := add_range nfa id_accept id_accept '0' '9'
  let nfa := add_transition nfa id_accept id_accept '_'
  let nfa := add_transition nfa id_accept id_accept '.'
  let reg_start : NFAState := ⟨3, false, TokenType.UNKNOWN⟩
  let reg_r : NFAState := ⟨4, false, TokenType.UNKNOWN⟩
  let reg_digit1 : NFAState := ⟨5, true, TokenType.REGISTER⟩
  let reg_digit2 : NFAState := ⟨6, true, TokenType.REGISTER⟩
  let nfa := add_state nfa reg_start
  let nfa := add_state nfa reg_r
  let nfa := add_state nfa reg_digit1
  let nfa := add_state nfa reg_digit2
  let nfa := add_transition nfa reg_start reg_r 'r'
  let nfa := add_range nfa reg_r reg_digit1 '0' '9'
  let nfa := add_range nfa reg_digit1 reg_digit2 '0' '9'
  let num_start : NFAState := ⟨7, false, TokenType.UNKNOWN⟩
  let num_digit : NFAState := ⟨8, true, TokenType.NUMBER⟩
  let num_hex : NFAState := ⟨9, false, TokenType.UNKNOWN⟩
  let num_hex_digit : NFAState := ⟨10, true, TokenType.NUMBER⟩
  let nfa := add_state nfa num_start
  let nfa := add_state nfa num_digit
  let nfa := add_state nfa num_hex
  let nfa := add_state nfa num_hex_digit
  let nfa := (char_range '0' '9').foldl
    (fun acc c => add_transition (add_transition acc num_start num_digit c) num_digit num_digit c)
    nfa
  let nfa := add_transition nfa num_start num_hex '0'
  let nfa := add_transition nfa num_hex num_hex_digit 'x'
  let nfa := add_range nfa num_hex_digit num_hex_digit '0' '9'
  let nfa := add_range nfa num_hex_digit num_hex_digit 'a' 'f'
  let nfa := add_range nfa num_hex_digit num_hex_digit 'A' 'F'
  let lparen : NFAState := ⟨11, true, TokenType.LPAREN⟩
  let rparen : NFAState := ⟨12, true, TokenType.RPAREN⟩
  let comma : NFAState := ⟨13, true, TokenType.COMMA⟩
  let colon : NFAState := ⟨14, true, TokenType.COLON⟩
  let dot : NFAState := ⟨15, true, TokenType.DOT⟩
  let nfa := add_state nfa lparen
  let nfa := add_state nfa rparen
  let nfa := add_state nfa comma
  let nfa := add_state nfa colon
  let nfa := add_state nfa dot
  let nfa := add_transition nfa nfa.start_state lparen '('
  let nfa := add_transition nfa nfa.start_state rparen ')'
  let nfa := add_transition nfa nfa.start_state comma ','
  let nfa := add_transition nfa nfa.start_state colon ':'
  let nfa := add_transition nfa nfa.start_state dot '.'
  let eol : NFAState := ⟨16, true, TokenType.END_OF_LINE⟩
  let nfa := add_state nfa eol
  add_transition nfa nfa.start_state eol '\n'

/-- The state of a `Lexer` object. -/
structure Lexer where
  input : List Char
  position : Nat
  line : Nat
  column : Nat
  nfa : NFA
  deriving DecidableEq, Repr

/-- The inner loop of `skip_whitespace`:
`while (position < input.size() && input[position] != '\n') position++;`. -/
def skip_comment (input : List Char) : Nat → Nat → Option Nat
  | 0, _ => none
  | fuel + 1, position =>
    match input[position]? with
    | none => some position
    | some c => if c != '\n' then skip_comment input fuel (position + 1) else some position

/-- The outer loop of `Lexer::skip_whitespace`. -/
def skip_whitespace_loop : Nat → Lexer → Option Lexer
  | 0, _ => none
  | fuel + 1, lx =>
    match lx.input[lx.position]? with
    | none => some lx
    | some c =>
      if c == ' ' || c == '\t' then
        skip_whitespace_loop fuel { lx with position := lx.position + 1, column := lx.column + 1 }
      else if c == '#' then
        match skip_comment lx.input (lx.input.length + 1) lx.position with
        | none => none
        | some position => skip_whitespace_loop fuel { lx with position := position, column := 1 }
      else some lx

/-- The method `Lexer::skip_whitespace`. -/
def skip_whitespace (lx : Lexer) : Option Lexer :=
  skip_whitespace_loop (lx.input.length + 1) lx

/-- The constructor `Lexer::Lexer(const std::string&)`. -/
def Lexer.new (src : List Char) : Lexer :=
  { input := src, position := 0, line := 1, column := 1, nfa := build_nfa NFA.new }

/-- The method `Lexer::next_token`: the token returned and the lexer afterwards. -/
def next_token (lx : Lexer) : Option (Token × Lexer) :=
  match skip_whitespace lx with
  | none => none
  | some lx =>
    match lx.input[lx.position]? with
    | none => some (⟨TokenType.END_OF_FILE, [], lx.line, lx.column⟩, lx)
    | some c =>
      match longest_match lx.nfa lx.input lx.position with
      | none => none
      | some (value, type) =>
        if type != TokenType.UNKNOWN then
          let start_column := lx.column
          let lx := { lx with position := lx.position + value.length,
                              column := lx.column + value.length }
          let lx := if type == TokenType.END_OF_LINE then
            { lx with line := lx.line + 1, column := 1 } else lx
          some (⟨type, value, lx.line, start_column⟩, lx)
        else
          let lx := { lx with position := lx.position + 1, column := lx.column + 1 }
          some (⟨TokenType.UNKNOWN, [c], lx.line, lx.column - 1⟩, lx)

/-- The loop of `main`: call `next_token` until it returns `END_OF_FILE`, collecting the
tokens in order (the `END_OF_FILE` token included). -/
def run_lexer : Nat → Lexer → Option (List Token)
  | 0, _ => none
  | fuel + 1, lx =>
    match next_token lx with
    | none => none
    | some (token, lx) =>
      if token.type == TokenType.END_OF_FILE then some [token]
      else (run_lexer fuel lx).map (fun rest => token :: rest)

/-- All tokens of a source text: a fresh lexer driven as in `main`. -/
def tokenize (src : List Char) : Option (List Token) :=
  run_lexer (src.length + 1) (Lexer.new src)

end NFALexer


namespace NFALexer

/-! ## Well-formed automata -/

/-- Well-formedness of an automaton: the state stored at index `i` has id `i`, and both
ends of every transition are states of the automaton. -/
def WellFormed (nfa : NFA) : Prop :=
  (∀ i : Fin nfa.states.length, (nfa.states.get i).id = ((i : Nat) : Int)) ∧
  (∀ t ∈ nfa.transitions, t.from_ ∈ nfa.states ∧ t.to_ ∈ nfa.states)

instance (nfa : NFA) : Decidable (WellFormed nfa) := by
  unfold WellFormed
  infer_instance

/-- The id `id` is a valid index into `states`. -/
def ValidId (nfa : NFA) (id : Int) : Prop := ∃ s, state_at nfa id = some s

/-- The automaton accepts `s`: `NFA::accepts` returns `true` on it. -/
def Accepted (nfa : NFA) (s : List Char) : Prop :=
  ∃ token_type kind, accepts nfa s token_type = some (true, kind)

/-- Number of epsilon transitions whose source has not been expanded yet: the potential
that bounds the remaining work of `epsilon_closure_loop`. -/
def pending (transitions : List NFATransition) (closure : List Int) : Nat :=
  (transitions.filter (fun t => t.input == epsilon && !(decide (t.from_.id ∈ closure)))).length

/-- A sample automaton for the language `a+`: state 0 is the start state, state 1 accepts
with kind `IDENTIFIER`, with transitions `0 -a-> 1` and `1 -a-> 1`. -/
def a_plus_nfa : NFA :=
  let nfa := add_state NFA.new ⟨1, true, TokenType.IDENTIFIER⟩
  let nfa := add_transition nfa nfa.start_state ⟨1, true, TokenType.IDENTIFIER⟩ 'a'
  add_transition nfa ⟨1, true, TokenType.IDENTIFIER⟩ ⟨1, true, TokenType.IDENTIFIER⟩ 'a'

/-- The token kind of each single-character token: the kinds of the accepting states that
`build_nfa` attaches to the start state by the transitions on these characters. -/
def punctuation_kind (c : Char) : TokenType :=
  if c = '(' then TokenType.LPAREN
  else if c = ')' then TokenType.RPAREN
  else if c = ',' then TokenType.COMMA
  else if c = ':' then TokenType.COLON
  else if c = '.' then TokenType.DOT
  else if c = '\n' then TokenType.END_OF_LINE
  else TokenType.UNKNOWN

/-- The result of the call number `n + 1` in a run of successive `next_token` calls. -/
def next_token_nth : Nat → Lexer → Option (Token × Lexer)
  | 0, lx => next_token lx
  | n + 1, lx =>
    match next_token lx with
    | none => none
    | some (_, lx2) => next_token_nth n lx2

/-- One epsilon transition of the automaton leads from the id `a` to the id `b`. -/
def eps_step (nfa : NFA) (a b : Int) : Prop :=
  ∃ t ∈ nfa.transitions, t.from_.id = a ∧ t.input = epsilon ∧ t.to_.id = b

/-- The id `b` is reachable from the id `a` by zero or more epsilon transitions. -/
def EpsReach (nfa : NFA) (a b : Int) : Prop :=
  Relation.ReflTransGen (eps_step nfa) a b

/-- A sample automaton with an epsilon cycle `0 → 1 → 2 → 0`, a transition `2 -a-> 3` to an
accepting state, and a state 4 that no transition reaches. -/
def eps_cycle_nfa : NFA :=
  let s1 : NFAState := ⟨1, false, TokenType.UNKNOWN⟩
  let s2 : NFAState := ⟨2, false, TokenType.UNKNOWN⟩
  let s3 : NFAState := ⟨3, true, TokenType.IDENTIFIER⟩
  let s4 : NFAState := ⟨4, true, TokenType.NUMBER⟩
  let nfa := add_state (add_state (add_state (add_state NFA.new s1) s2) s3) s4
  let nfa := add_transition nfa nfa.start_state s1 epsilon
  let nfa := add_transition nfa s1 s2 epsilon
  let nfa := add_transition nfa s2 nfa.start_state epsilon
  add_transition nfa s2 s3 'a'

/-- A sample automaton with a tie: on `r` both state 1 (`REGISTER`) and state 2
(`IDENTIFIER`) become active; the transition to state 2 is added first. -/
def tie_nfa : NFA :=
  let s1 : NFAState := ⟨1, true, TokenType.REGISTER⟩
  let s2 : NFAState := ⟨2, true, TokenType.IDENTIFIER⟩
  let nfa := add_state (add_state NFA.new s1) s2
  let nfa := add_transition nfa nfa.start_state s2 'r'
  add_transition nfa nfa.start_state s1 'r'

/-- The automaton `tie_nfa` with its two transitions added in the other order. -/
def tie_nfa_swapped : NFA :=
  let s1 : NFAState := ⟨1, true, TokenType.REGISTER⟩
  let s2 : NFAState := ⟨2, true, TokenType.IDENTIFIER⟩
  let nfa := add_state (add_state NFA.new s1) s2
  let nfa := add_transition nfa nfa.start_state s1 'r'
  add_transition nfa nfa.start_state s2 'r'

/-- The character at offset `j` is one that `skip_whitespace`, started at offset `start`,
passes over: a blank, a tab, or a character of a `#` comment, that is, some `#` stands at
an offset `i` with `start ≤ i ≤ j` and no newline stands between `i` and `j`. -/
def Skippable (input : List Char) (start j : Nat) : Prop :=
  input[j]? = some ' ' ∨ input[j]? = some '\t' ∨
    ∃ i, start ≤ i ∧ i ≤ j ∧ input[i]? = some '#' ∧
      ∀ m, i ≤ m → m ≤ j → input[m]? ≠ some '\n'

/-! ## Sets of ids -/

theorem mem_set_insert (x y : Int) (s : List Int) :
    y ∈ set_insert x s ↔ y = x ∨ y ∈ s := by
  induction s with
  | nil => simp [set_insert]
  | cons z zs ih =>
    unfold set_insert
    split_ifs with h1 h2
    · simp
    · subst h2
      simp
    · simp only [List.mem_cons, ih]
      tauto

theorem mem_set_insert_all (xs s : List Int) (y : Int) :
    y ∈ set_insert_all xs s ↔ y ∈ xs ∨ y ∈ s := by
  unfold set_insert_all
  induction xs generalizing s with
  | nil => simp
  | cons x xs ih =>
    simp only [List.foldl_cons, ih, mem_set_insert, List.mem_cons]
    tauto

/-! ## The single-state closure terminates -/

theorem pending_le (transitions : List NFATransition) (closure : List Int) :
    pending transitions closure ≤ transitions.length := by
  unfold pending
  exact List.length_filter_le _ _

theorem pending_insert (transitions : List NFATransition) (closure : List Int)
    (current : NFAState) (h : current.id ∉ closure) :
    pending transitions (set_insert current.id closure)
      + (epsilon_targets transitions current).length = pending transitions closure := by
  unfold pending epsilon_targets
  induction transitions with
  | nil => simp
  | cons t ts ih =>
    simp only [List.filter_cons, List.length_map] at ih ⊢
    by_cases he : t.input = epsilon <;> by_cases hf : t.from_.id = current.id
      <;> by_cases hc : t.from_.id ∈ closure
      <;> simp [he, hf, hc, mem_set_insert, h] at ih ⊢
      <;> omega

/-- With fuel at least the stack size plus the pending epsilon transitions the loop of
`epsilon_closure` finishes. -/
theorem epsilon_closure_loop_terminates (transitions : List NFATransition) :
    ∀ (fuel : Nat) (closure : List Int) (stack : List NFAState),
      stack.length + pending transitions closure ≤ fuel →
      ∃ r, epsilon_closure_loop transitions fuel closure stack = some r := by
  intro fuel
  induction fuel with
  | zero =>
    intro closure stack h
    cases stack with
    | nil => exact ⟨closure, by simp [epsilon_closure_loop]⟩
    | cons st rest => simp at h
  | succ fuel ih =>
    intro closure stack h
    cases stack with
    | nil => exact ⟨closure, by simp [epsilon_closure_loop]⟩
    | cons current stack =>
      unfold epsilon_closure_loop
      split_ifs with hmem
      · apply ih
        simp only [List.length_cons] at h
        omega
      · apply ih
        have hp := pending_insert transitions closure current hmem
        simp only [List.length_cons] at h
        simp only [List.length_append, List.length_reverse]
        omega

/-- A property of ids that holds of the closure so far and of the stacked states, and that
epsilon transitions carry from their source to their target, holds of every id returned by
the loop of `epsilon_closure`. -/
theorem epsilon_closure_loop_mem (transitions : List NFATransition) (V : Int → Prop)
    (hV : ∀ t ∈ transitions, t.input = epsilon → V t.from_.id → V t.to_.id) :
    ∀ (fuel : Nat) (closure : List Int) (stack : List NFAState) (r : List Int),
      (∀ id ∈ closure, V id) → (∀ st ∈ stack, V st.id) →
      epsilon_closure_loop transitions fuel closure stack = some r → ∀ id ∈ r, V id := by
  intro fuel
  induction fuel with
  | zero =>
    intro closure stack r hc hs h
    cases stack with
    | nil =>
      simp only [epsilon_closure_loop, Option.some.injEq] at h
      subst h
      exact hc
    | cons st rest => simp [epsilon_closure_loop] at h
  | succ fuel ih =>
    intro closure stack r hc hs h
    cases stack with
    | nil =>
      simp only [epsilon_closure_loop, Option.some.injEq] at h
      subst h
      exact hc
    | cons current stack =>
      unfold epsilon_closure_loop at h
      split_ifs at h with hmem
      · exact ih closure stack r hc (fun st hst => hs st (List.mem_cons_of_mem _ hst)) h
      · refine ih _ _ r ?_ ?_ h
        · intro id hid
          rcases (mem_set_insert _ _ _).1 hid with rfl | hid
          · exact hs current (List.mem_cons_self _ _)
          · exact hc id hid
        · intro st hst
          rcases List.mem_append.1 hst with hst | hst
          · rw [List.mem_reverse] at hst
            unfold epsilon_targets at hst
            obtain ⟨t, ht, rfl⟩ := List.mem_map.1 hst
            obtain ⟨htmem, hpred⟩ := List.mem_filter.1 ht
            simp only [Bool.and_eq_true, beq_iff_eq] at hpred
            refine hV t htmem hpred.2 ?_
            rw [hpred.1]
            exact hs current (List.mem_cons_self _ _)
          · exact hs st (List.mem_cons_of_mem _ hst)

/-- The single-state closure always returns. -/
theorem epsilon_closure_terminates (nfa : NFA) (state : NFAState) :
    ∃ r, epsilon_closure nfa state = some r := by
  unfold epsilon_closure
  apply epsilon_closure_loop_terminates
  have := pending_le nfa.transitions []
  simp only [List.length_singleton]
  omega

/-! ## Valid ids in well-formed automata -/

theorem state_at_of_mem (nfa : NFA) (hwf : WellFormed nfa) (s : NFAState)
    (hs : s ∈ nfa.states) : state_at nfa s.id = some s := by
  obtain ⟨i, hi⟩ := List.mem_iff_get.1 hs
  have hid := hwf.1 i
  rw [hi] at hid
  unfold state_at
  rw [hid]
  simp only [Int.toNat_ofNat]
  rw [if_neg (by omega)]
  rw [List.getElem?_eq_getElem i.isLt]
  exact congrArg some hi

theorem mem_of_state_at (nfa : NFA) (id : Int) (s : NFAState)
    (h : state_at nfa id = some s) : s ∈ nfa.states := by
  unfold state_at at h
  split_ifs at h
  exact List.getElem?_mem h

theorem validId_target (nfa : NFA) (hwf : WellFormed nfa) (t : NFATransition)
    (ht : t ∈ nfa.transitions) : ValidId nfa t.to_.id :=
  ⟨t.to_, state_at_of_mem nfa hwf t.to_ (hwf.2 t ht).2⟩

/-! ## `move` -/

theorem mem_move_scan (ts : List NFATransition) (id : Int) (c : Char) (acc : List Int)
    (y : Int) :
    y ∈ ts.foldl
        (fun acc trans =>
          if trans.from_.id == id && trans.input == c then set_insert trans.to_.id acc else acc)
        acc ↔
      y ∈ acc ∨ ∃ t ∈ ts, t.from_.id = id ∧ t.input = c ∧ t.to_.id = y := by
  induction ts generalizing acc with
  | nil => simp
  | cons t ts ih =>
    simp only [List.foldl_cons, ih, List.mem_cons]
    by_cases h : t.from_.id = id ∧ t.input = c
    · simp only [h.1, h.2, beq_self_eq_true, Bool.and_self, if_true, mem_set_insert]
      constructor
      · rintro ((rfl | hy) | ⟨t2, ht2, h2⟩)
        · exact Or.inr ⟨t, Or.inl rfl, h.1, h.2, rfl⟩
        · exact Or.inl hy
        · exact Or.inr ⟨t2, Or.inr ht2, h2⟩
      · rintro (hy | ⟨t2, rfl | ht2, h2⟩)
        · exact Or.inl (Or.inr hy)
        · exact Or.inl (Or.inl h2.2.2.symm)
        · exact Or.inr ⟨t2, ht2, h2⟩
    · have hb : (t.from_.id == id && t.input == c) = false := by
        rcases not_and_or.1 h with h1 | h1 <;> simp [h1]
      simp only [hb, Bool.false_eq_true, if_false]
      constructor
      · rintro (hy | ⟨t2, ht2, h2⟩)
        · exact Or.inl hy
        · exact Or.inr ⟨t2, Or.inr ht2, h2⟩
      · rintro (hy | ⟨t2, rfl | ht2, h2⟩)
        · exact Or.inl hy
        · exact absurd ⟨h2.1, h2.2.1⟩ h
        · exact Or.inr ⟨t2, ht2, h2⟩

theorem mem_move_fold (nfa : NFA) (c : Char) (ids acc : List Int) (y : Int) :
    y ∈ ids.foldl
        (fun new_states id =>
          nfa.transitions.foldl
            (fun acc trans =>
              if trans.from_.id == id && trans.input == c then set_insert trans.to_.id acc
              else acc)
            new_states)
        acc ↔
      y ∈ acc ∨ ∃ id ∈ ids, ∃ t ∈ nfa.transitions,
        t.from_.id = id ∧ t.input = c ∧ t.to_.id = y := by
  induction ids generalizing acc with
  | nil => simp
  | cons id ids ih =>
    simp only [List.foldl_cons, ih, mem_move_scan, List.mem_cons]
    constructor
    · rintro ((hy | h) | ⟨id2, hid2, h⟩)
      · exact Or.inl hy
      · exact Or.inr ⟨id, Or.inl rfl, h⟩
      · exact Or.inr ⟨id2, Or.inr hid2, h⟩
    · rintro (hy | ⟨id2, rfl | hid2, h⟩)
      · exact Or.inl (Or.inl hy)
      · exact Or.inl (Or.inr h)
      · exact Or.inr ⟨id2, hid2, h⟩

/-- Membership in the result of `move`. -/
theorem mem_move (nfa : NFA) (state_ids : List Int) (c : Char) (y : Int) :
    y ∈ move nfa state_ids c ↔
      ∃ id ∈ state_ids, ∃ t ∈ nfa.transitions,
        t.from_.id = id ∧ t.input = c ∧ t.to_.id = y := by
  unfold move
  rw [mem_move_fold]
  simp

theorem move_valid (nfa : NFA) (hwf : WellFormed nfa) (state_ids : List Int) (c : Char) :
    ∀ id ∈ move nfa state_ids c, ValidId nfa id := by
  intro id hid
  obtain ⟨_, _, t, ht, _, _, rfl⟩ := (mem_move nfa state_ids c id).1 hid
  exact validId_target nfa hwf t ht

/-! ## The set closure and the accepting-state scan return on valid ids -/

theorem epsilon_closure_valid (nfa : NFA) (hwf : WellFormed nfa) (s : NFAState)
    (hs : s ∈ nfa.states) (r : List Int) (h : epsilon_closure nfa s = some r) :
    ∀ id ∈ r, ValidId nfa id := by
  unfold epsilon_closure at h
  refine epsilon_closure_loop_mem nfa.transitions (ValidId nfa)
    (fun t ht _ _ => validId_target nfa hwf t ht) _ [] [s] r (by simp) ?_ h
  intro st hst
  rw [List.mem_singleton] at hst
  subst hst
  exact ⟨st, state_at_of_mem nfa hwf st hs⟩

theorem epsilon_closure_ids_valid (nfa : NFA) (hwf : WellFormed nfa) :
    ∀ (ids closure : List Int), (∀ id ∈ ids, ValidId nfa id) →
      (∀ id ∈ closure, ValidId nfa id) →
      ∃ r, epsilon_closure_ids nfa closure ids = some r ∧ ∀ id ∈ r, ValidId nfa id := by
  intro ids
  induction ids with
  | nil =>
    intro closure _ hc
    exact ⟨closure, rfl, hc⟩
  | cons id ids ih =>
    intro closure hids hc
    obtain ⟨s, hs⟩ := hids id (List.mem_cons_self _ _)
    obtain ⟨sc, hsc⟩ := epsilon_closure_terminates nfa s
    have hv := epsilon_closure_valid nfa hwf s (mem_of_state_at nfa id s hs) sc hsc
    unfold epsilon_closure_ids
    simp only [hs, hsc]
    apply ih _ (fun i hi => hids i (List.mem_cons_of_mem _ hi))
    intro i hi
    rcases (mem_set_insert_all _ _ _).1 hi with hi | hi
    · exact hv i hi
    · exact hc i hi

/-- One scanning step `epsilon_closure(move(current_states, c))` returns a set of valid ids. -/
theorem step_valid (nfa : NFA) (hwf : WellFormed nfa) (current_states : List Int) (c : Char) :
    ∃ next, epsilon_closure_set nfa (move nfa current_states c) = some next ∧
      ∀ id ∈ next, ValidId nfa id := by
  unfold epsilon_closure_set
  exact epsilon_closure_ids_valid nfa hwf _ [] (move_valid nfa hwf current_states c) (by simp)

theorem find_accepting_total (nfa : NFA) :
    ∀ ids : List Int, (∀ id ∈ ids, ValidId nfa id) → ∃ r, find_accepting nfa ids = some r := by
  intro ids
  induction ids with
  | nil => intro _; exact ⟨none, rfl⟩
  | cons id ids ih =>
    intro h
    obtain ⟨s, hs⟩ := h id (List.mem_cons_self _ _)
    unfold find_accepting
    simp only [hs]
    split_ifs
    · exact ⟨some s, rfl⟩
    · exact ih (fun i hi => h i (List.mem_cons_of_mem _ hi))

/-! ## `accepts` and `longest_match` scan in lockstep -/

theorem accepts_from_nil (nfa : NFA) (current_states : List Int) (token_type : TokenType) :
    accepts_from nfa current_states [] token_type =
      match find_accepting nfa current_states with
      | none => none
      | some (some s) => some (true, s.accepting_type)
      | some none => some (false, token_type) := by
  simp [accepts_from, accepts_loop]

theorem accepts_from_cons_empty (nfa : NFA) (current_states : List Int) (c : Char)
    (cs : List Char) (token_type : TokenType)
    (h : epsilon_closure_set nfa (move nfa current_states c) = some []) :
    accepts_from nfa current_states (c :: cs) token_type = some (false, token_type) := by
  simp [accepts_from, accepts_loop, h, find_accepting]

theorem accepts_from_cons (nfa : NFA) (current_states next : List Int) (c : Char)
    (cs : List Char) (token_type : TokenType)
    (h : epsilon_closure_set nfa (move nfa current_states c) = some next)
    (hne : next.isEmpty = false) :
    accepts_from nfa current_states (c :: cs) token_type =
      accepts_from nfa next cs token_type := by
  simp [accepts_from, accepts_loop, h, hne]

/-- The loop of `longest_match` returns, and its result is either the checkpoint it was
started with (no prefix of the unread input is accepted from `current_states`) or the end
of the longest prefix of the unread input accepted from `current_states`, with the kind
`accepts` reports for that prefix. -/
theorem longest_match_loop_spec (nfa : NFA) (hwf : WellFormed nfa) :
    ∀ (rest : List Char) (pos : Nat) (current_states : List Int) (last_accept_pos : Nat)
      (last_accept_type : TokenType),
      ∃ p ty, longest_match_loop nfa rest pos current_states last_accept_pos last_accept_type
          = some (p, ty) ∧
        ((p = last_accept_pos ∧ ty = last_accept_type ∧
            ∀ k, 1 ≤ k → k ≤ rest.length → ∀ tt,
              accepts_from nfa current_states (rest.take k) tt = some (false, tt)) ∨
         (∃ n, 1 ≤ n ∧ n ≤ rest.length ∧ p = pos + n ∧
            (∀ tt, accepts_from nfa current_states (rest.take n) tt = some (true, ty)) ∧
            ∀ k, n < k → k ≤ rest.length → ∀ tt,
              accepts_from nfa current_states (rest.take k) tt = some (false, tt))) := by
  intro rest
  induction rest with
  | nil =>
    intro pos cur lap lat
    refine ⟨lap, lat, rfl, Or.inl ⟨rfl, rfl, ?_⟩⟩
    intro k h1 h2
    simp at h2
    omega
  | cons c rest ih =>
    intro pos cur lap lat
    obtain ⟨next, hnext, hvalid⟩ := step_valid nfa hwf cur c
    unfold longest_match_loop
    simp only [hnext]
    cases hemp : next.isEmpty with
    | true =>
      have hnil : next = [] := List.isEmpty_iff.1 hemp
      subst hnil
      refine ⟨lap, lat, by simp, Or.inl ⟨rfl, rfl, ?_⟩⟩
      intro k h1 _ tt
      obtain ⟨j, rfl⟩ : ∃ j, k = j + 1 := ⟨k - 1, by omega⟩
      rw [List.take_succ_cons]
      exact accepts_from_cons_empty nfa cur c _ tt hnext
    | false =>
      have hstep : ∀ (j : Nat) (tt : TokenType),
          accepts_from nfa cur ((c :: rest).take (j + 1)) tt
            = accepts_from nfa next (rest.take j) tt := by
        intro j tt
        rw [List.take_succ_cons]
        exact accepts_from_cons nfa cur next c _ tt hnext hemp
      obtain ⟨r, hr⟩ := find_accepting_total nfa next hvalid
      simp only [Bool.false_eq_true, if_false, hr]
      cases r with
      | some s =>
        obtain ⟨p, ty, hloop, hcase⟩ := ih (pos + 1) next (pos + 1) s.accepting_type
        refine ⟨p, ty, hloop, Or.inr ?_⟩
        rcases hcase with ⟨hp, hty, hrej⟩ | ⟨n, hn1, hn2, hp, hacc, hrej⟩
        · refine ⟨1, le_refl 1, by simp, hp, ?_, ?_⟩
          · intro tt
            rw [hstep 0 tt, List.take_zero, accepts_from_nil, hr, hty]
          · intro k hk1 hk2 tt
            obtain ⟨j, rfl⟩ : ∃ j, k = j + 1 := ⟨k - 1, by omega⟩
            rw [hstep j tt]
            simp only [List.length_cons] at hk2
            exact hrej j (by omega) (by omega) tt
        · refine ⟨n + 1, by omega, by simp; omega, by omega, ?_, ?_⟩
          · intro tt
            rw [hstep n tt]
            exact hacc tt
          · intro k hk1 hk2 tt
            obtain ⟨j, rfl⟩ : ∃ j, k = j + 1 := ⟨k - 1, by omega⟩
            rw [hstep j tt]
            simp only [List.length_cons] at hk2
            exact hrej j (by omega) (by omega) tt
      | none =>
        obtain ⟨p, ty, hloop, hcase⟩ := ih (pos + 1) next lap lat
        refine ⟨p, ty, hloop, ?_⟩
        rcases hcase with ⟨hp, hty, hrej⟩ | ⟨n, hn1, hn2, hp, hacc, hrej⟩
        · refine Or.inl ⟨hp, hty, ?_⟩
          intro k hk1 hk2 tt
          obtain ⟨j, rfl⟩ : ∃ j, k = j + 1 := ⟨k - 1, by omega⟩
          rw [hstep j tt]
          simp only [List.length_cons] at hk2
          rcases Nat.eq_zero_or_pos j with rfl | hj
          · rw [List.take_zero, accepts_from_nil, hr]
          · exact hrej j hj (by omega) tt
        · refine Or.inr ⟨n + 1, by omega, by simp; omega, by omega, ?_, ?_⟩
          · intro tt
            rw [hstep n tt]
            exact hacc tt
          · intro k hk1 hk2 tt
            obtain ⟨j, rfl⟩ : ∃ j, k = j + 1 := ⟨k - 1, by omega⟩
            rw [hstep j tt]
            simp only [List.length_cons] at hk2
            exact hrej j (by omega) (by omega) tt

/-- The two outcomes of `longest_match` on a well-formed automaton: no match, and then no
non-empty prefix of `input[start_pos..]` is accepted; or the longest accepted prefix,
together with the kind `accepts` reports for it. -/
theorem longest_match_cases (nfa : NFA) (hwf : WellFormed nfa) (input : List Char)
    (start_pos : Nat) :
    (longest_match nfa input start_pos = some ([], TokenType.UNKNOWN) ∧
        ∀ k, 1 ≤ k → k ≤ input.length - start_pos → ∀ tt,
          accepts nfa ((input.drop start_pos).take k) tt = some (false, tt)) ∨
    (∃ n ty, 1 ≤ n ∧ n ≤ input.length - start_pos ∧
        longest_match nfa input start_pos = some ((input.drop start_pos).take n, ty) ∧
        (∀ tt, accepts nfa ((input.drop start_pos).take n) tt = some (true, ty)) ∧
        ∀ k, n < k → k ≤ input.length - start_pos → ∀ tt,
          accepts nfa ((input.drop start_pos).take k) tt = some (false, tt)) := by
  obtain ⟨cur, hcur⟩ := epsilon_closure_terminates nfa nfa.start_state
  obtain ⟨p, ty, hloop, hcase⟩ :=
    longest_match_loop_spec nfa hwf (input.drop start_pos) start_pos cur start_pos
      TokenType.UNKNOWN
  have hacc : ∀ s tt, accepts nfa s tt = accepts_from nfa cur s tt := by
    intro s tt
    simp [accepts, hcur]
  simp only [List.length_drop] at hcase
  rcases hcase with ⟨hp, hty, hrej⟩ | ⟨n, hn1, hn2, hp, hok, hrej⟩
  · left
    refine ⟨?_, fun k h1 h2 tt => by rw [hacc]; exact hrej k h1 h2 tt⟩
    simp [longest_match, hcur, hloop, hp]
  · right
    refine ⟨n, ty, hn1, hn2, ?_, fun tt => by rw [hacc]; exact hok tt,
      fun k h1 h2 tt => by rw [hacc]; exact hrej k h1 h2 tt⟩
    have hgt : p > start_pos := by omega
    have hsub : p - start_pos = n := by omega
    simp [longest_match, hcur, hloop, hgt, hsub]

/-! ## Maximal munch -/

/-- The comment loop returns when given fuel for the rest of the buffer; it never moves
backwards, stays within the buffer, and passes a character that is not a newline. -/
theorem skip_comment_spec (input : List Char) :
    ∀ (fuel position : Nat), 1 ≤ fuel → input.length + 1 ≤ position + fuel →
      ∃ p, skip_comment input fuel position = some p ∧ position ≤ p ∧
        (position ≤ input.length → p ≤ input.length) ∧
        (∀ c, input[position]? = some c → c ≠ '\n' → position + 1 ≤ p) := by
  intro fuel
  induction fuel with
  | zero => intro position h; omega
  | succ fuel ih =>
    intro position _ hfuel
    unfold skip_comment
    cases hc : input[position]? with
    | none => exact ⟨position, rfl, le_refl _, fun h => h, by simp⟩
    | some c =>
      have hlt : position < input.length := (List.getElem?_eq_some.1 hc).1
      by_cases hnl : c = '\n'
      · subst hnl
        exact ⟨position, by simp, le_refl _, fun h => h, by simp⟩
      · obtain ⟨p, hp, hle, hin, _⟩ := ih (position + 1) (by omega) (by omega)
        refine ⟨p, ?_, by omega, fun _ => hin (by omega), fun _ _ _ => hle⟩
        simp [hnl, hp]

/-- The whitespace loop returns when given fuel for the rest of the buffer; it changes
neither the input, the automaton nor the line, never moves backwards and stays within the
buffer. -/
theorem skip_whitespace_loop_spec :
    ∀ (fuel : Nat) (lx : Lexer), 1 ≤ fuel → lx.input.length + 1 ≤ lx.position + fuel →
      ∃ lx1, skip_whitespace_loop fuel lx = some lx1 ∧ lx1.input = lx.input ∧
        lx1.nfa = lx.nfa ∧ lx1.line = lx.line ∧ lx.position ≤ lx1.position ∧
        (lx.position ≤ lx.input.length → lx1.position ≤ lx.input.length) := by
  intro fuel
  induction fuel with
  | zero => intro lx h; omega
  | succ fuel ih =>
    intro lx _ hfuel
    unfold skip_whitespace_loop
    cases hc : lx.input[lx.position]? with
    | none => exact ⟨lx, rfl, rfl, rfl, rfl, le_refl _, fun h => h⟩
    | some c =>
      have hlt : lx.position < lx.input.length := (List.getElem?_eq_some.1 hc).1
      by_cases hsp : (c == ' ' || c == '\t') = true
      · obtain ⟨lx1, h1, hin, hnfa, hline, hpos, hbound⟩ :=
          ih { lx with position := lx.position + 1, column := lx.column + 1 }
            (by omega) (by simp only; omega)
        refine ⟨lx1, ?_, hin, hnfa, hline, ?_, fun _ => hbound (by simp only; omega)⟩
        · simp only [hsp, if_true]
          exact h1
        · simp only at hpos
          omega
      · by_cases hhash : (c == '#') = true
        · have hceq : c = '#' := by simpa using hhash
          obtain ⟨p, hp, hle, hin, hadv⟩ :=
            skip_comment_spec lx.input (lx.input.length + 1) lx.position (by omega) (by omega)
          have hadv2 := hadv c hc (by rw [hceq]; decide)
          obtain ⟨lx1, h1, hin1, hnfa, hline, hpos, hbound⟩ :=
            ih { lx with position := p, column := 1 } (by omega) (by simp only; omega)
          refine ⟨lx1, ?_, hin1, hnfa, hline, ?_, fun h => hbound (hin h)⟩
          · simp only [hsp, hhash, if_true, hp]
            exact h1
          · simp only at hpos
            omega
        · refine ⟨lx, ?_, rfl, rfl, rfl, le_refl _, fun h => h⟩
          simp only [hsp, hhash]
          rfl

/-- The method `skip_whitespace` always returns. -/
theorem skip_whitespace_spec (lx : Lexer) :
    ∃ lx1, skip_whitespace lx = some lx1 ∧ lx1.input = lx.input ∧
      lx1.nfa = lx.nfa ∧ lx1.line = lx.line ∧ lx.position ≤ lx1.position ∧
      (lx.position ≤ lx.input.length → lx1.position ≤ lx.input.length) :=
  skip_whitespace_loop_spec (lx.input.length + 1) lx (by omega) (by omega)

/-- Over a well-formed automaton `next_token` always returns; it keeps the input and the
automaton, stays within the buffer, and either returns `END_OF_FILE` or moves forward. -/
theorem next_token_spec (lx : Lexer) (hwf : WellFormed lx.nfa) :
    ∃ token lx2, next_token lx = some (token, lx2) ∧ lx2.input = lx.input ∧
      lx2.nfa = lx.nfa ∧
      (lx.position ≤ lx.input.length → lx2.position ≤ lx.input.length) ∧
      (token.type = TokenType.END_OF_FILE ∨ lx.position + 1 ≤ lx2.position) := by
  obtain ⟨lx1, h1, hin, hnfa, _, hpos, hbound⟩ := skip_whitespace_spec lx
  unfold next_token
  simp only [h1]
  cases hc : lx1.input[lx1.position]? with
  | none => exact ⟨_, lx1, rfl, hin, hnfa, hbound, Or.inl rfl⟩
  | some c =>
    have hlt : lx1.position < lx1.input.length := (List.getElem?_eq_some.1 hc).1
    rw [← hnfa] at hwf
    rw [hin] at hlt
    rcases longest_match_cases lx1.nfa hwf lx1.input lx1.position with
      ⟨hres, _⟩ | ⟨n, ty, hn1, hn2, hres, _, _⟩
    · simp only [hres]
      refine ⟨_, _, rfl, hin, hnfa, fun _ => ?_, Or.inr ?_⟩
      · simp; omega
      · simp; omega
    · simp only [hres]
      have hlen : ((lx1.input.drop lx1.position).take n).length = n := by
        simp only [List.length_take, List.length_drop]
        omega
      rw [hin] at hn2
      by_cases hty : ty = TokenType.UNKNOWN
      · subst hty
        refine ⟨_, _, rfl, hin, hnfa, fun _ => ?_, Or.inr ?_⟩
        · simp; omega
        · simp; omega
      · have hb : (ty != TokenType.UNKNOWN) = true := by simpa using hty
        simp only [hb, if_true, hlen]
        by_cases heol : ty = TokenType.END_OF_LINE
        · subst heol
          simp only [beq_self_eq_true, if_true]
          exact ⟨_, _, rfl, hin, hnfa, fun _ => by simp only; omega,
            Or.inr (by simp only; omega)⟩
        · have hb2 : (ty == TokenType.END_OF_LINE) = false := by simpa using heol
          simp only [hb2, Bool.false_eq_true, if_false]
          exact ⟨_, _, rfl, hin, hnfa, fun _ => by simp only; omega,
            Or.inr (by simp only; omega)⟩

set_option maxRecDepth 100000 in
/-- The automaton built by the `Lexer` constructor is well-formed. -/
theorem build_nfa_wellFormed : WellFormed (build_nfa NFA.new) := by decide

/-- The driver loop over a well-formed automaton reaches `END_OF_FILE` when its fuel covers
the unread part of the buffer, after at most one call per unread character plus one. -/
theorem run_lexer_spec :
    ∀ (fuel : Nat) (lx : Lexer), WellFormed lx.nfa → lx.position ≤ lx.input.length →
      lx.input.length + 1 ≤ lx.position + fuel →
      ∃ tokens, run_lexer fuel lx = some tokens ∧
        tokens.length + lx.position ≤ lx.input.length + 1 ∧
        ∃ t, tokens.getLast? = some t ∧ t.type = TokenType.END_OF_FILE := by
  intro fuel
  induction fuel with
  | zero => intro lx _ h1 h2; omega
  | succ fuel ih =>
    intro lx hwf hpos hfuel
    obtain ⟨token, lx2, hnext, hin, hnfa, hbound, hprog⟩ := next_token_spec lx hwf
    unfold run_lexer
    simp only [hnext]
    by_cases heof : token.type = TokenType.END_OF_FILE
    · refine ⟨[token], by simp [heof], by simp; omega, token, rfl, heof⟩
    · have hadv : lx.position + 1 ≤ lx2.position := hprog.resolve_left heof
      have hb : (token.type == TokenType.END_OF_FILE) = false := by simpa using heof
      obtain ⟨rest, hrest, hlen, t, ht, hty⟩ :=
        ih lx2 (by rw [hnfa]; exact hwf) (by rw [hin]; exact hbound hpos)
          (by rw [hin]; omega)
      rw [hin] at hlen
      refine ⟨token :: rest, by simp [hb, hrest], by simp only [List.length_cons]; omega,
        t, ?_, hty⟩
      cases rest with
      | nil => simp at ht
      | cons r rs => simpa using ht

/-- C2 (termination and forward progress). On a lexer over the automaton of `build_nfa`,
whatever the input and the cursor, a call to `next_token` returns, and it either returns
`END_OF_FILE` or leaves the offset at least one further; hence driving a freshly
constructed lexer over `s` reaches `END_OF_FILE` within `|s| + 1` calls: the token list of
the run exists, has at most `|s| + 1` tokens, and ends with `END_OF_FILE`. -/
theorem next_token_progress :
    (∀ (input : List Char) (position line column : Nat),
      ∃ token lx2,
        next_token ⟨input, position, line, column, build_nfa NFA.new⟩ = some (token, lx2) ∧
        (token.type = TokenType.END_OF_FILE ∨ position + 1 ≤ lx2.position)) ∧
    (∀ s : List Char,
      ∃ tokens, run_lexer (s.length + 1) (Lexer.new s) = some tokens ∧
        tokens.length ≤ s.length + 1 ∧
        ∃ t, tokens.getLast? = some t ∧ t.type = TokenType.END_OF_FILE) := by
  constructor
  · intro input position line column
    obtain ⟨token, lx2, hnext, _, _, _, hprog⟩ :=
      next_token_spec ⟨input, position, line, column, build_nfa NFA.new⟩ build_nfa_wellFormed
    exact ⟨token, lx2, hnext, hprog⟩
  · intro s
    obtain ⟨tokens, hrun, hlen, hlast⟩ :=
      run_lexer_spec (s.length + 1) (Lexer.new s) build_nfa_wellFormed (Nat.zero_le _)
        (by simp [Lexer.new])
    refine ⟨tokens, hrun, ?_, hlast⟩
    simpa [Lexer.new] using hlen

/-! ## What the automaton of `build_nfa` accepts -/

theorem state_at_id (nfa : NFA) (hwf : WellFormed nfa) (id : Int) (s : NFAState)
    (h : state_at nfa id = some s) : s.id = id := by
  unfold state_at at h
  split_ifs at h with hneg
  obtain ⟨hlt, hget⟩ := List.getElem?_eq_some.1 h
  have hid := hwf.1 ⟨id.toNat, hlt⟩
  simp only [List.get_eq_getElem] at hid
  rw [hget] at hid
  rw [hid]
  omega

theorem epsilon_closure_ids_mem (nfa : NFA) (hwf : WellFormed nfa) (V : Int → Prop)
    (hV : ∀ t ∈ nfa.transitions, t.input = epsilon → V t.to_.id) :
    ∀ (ids closure r : List Int), (∀ id ∈ ids, V id) → (∀ id ∈ closure, V id) →
      epsilon_closure_ids nfa closure ids = some r → ∀ id ∈ r, V id := by
  intro ids
  induction ids with
  | nil =>
    intro closure r _ hc h
    simp only [epsilon_closure_ids, Option.some.injEq] at h
    subst h
    exact hc
  | cons id ids ih =>
    intro closure r hids hc h
    unfold epsilon_closure_ids at h
    cases hs : state_at nfa id with
    | none => simp [hs] at h
    | some s =>
      cases hsc : epsilon_closure nfa s with
      | none => simp [hs, hsc] at h
      | some sc =>
        simp only [hs, hsc] at h
        refine ih _ r (fun i hi => hids i (List.mem_cons_of_mem _ hi)) ?_ h
        intro i hi
        rcases (mem_set_insert_all _ _ _).1 hi with hi | hi
        · unfold epsilon_closure at hsc
          refine epsilon_closure_loop_mem nfa.transitions V (fun t ht he _ => hV t ht he)
            _ [] [s] sc (by simp) ?_ hsc i hi
          intro st hst
          rw [List.mem_singleton] at hst
          subst hst
          rw [state_at_id nfa hwf id st hs]
          exact hids id (List.mem_cons_self _ _)
        · exact hc i hi

theorem find_accepting_some (nfa : NFA) :
    ∀ (ids : List Int) (s : NFAState), find_accepting nfa ids = some (some s) →
      ∃ id ∈ ids, state_at nfa id = some s ∧ s.is_accepting = true := by
  intro ids
  induction ids with
  | nil => intro s h; simp [find_accepting] at h
  | cons id ids ih =>
    intro s h
    unfold find_accepting at h
    cases hs : state_at nfa id with
    | none => simp [hs] at h
    | some st =>
      simp only [hs] at h
      split_ifs at h with hacc
      · simp only [Option.some.injEq] at h
        subst h
        exact ⟨id, List.mem_cons_self _ _, hs, hacc⟩
      · obtain ⟨i, hi, h2⟩ := ih s h
        exact ⟨i, List.mem_cons_of_mem _ hi, h2⟩

set_option maxRecDepth 100000 in
theorem build_nfa_no_epsilon :
    ∀ t ∈ (build_nfa NFA.new).transitions, t.input ≠ epsilon := by decide

set_option maxRecDepth 100000 in
theorem build_nfa_from_start :
    ∀ t ∈ (build_nfa NFA.new).transitions, t.from_.id = 0 →
      t.to_.id ∈ [11, 12, 13, 14, 15, 16] := by decide

set_option maxRecDepth 100000 in
theorem build_nfa_punctuation_leaves :
    ∀ t ∈ (build_nfa NFA.new).transitions, t.from_.id ∉ [11, 12, 13, 14, 15, 16] := by decide

set_option maxRecDepth 100000 in
theorem build_nfa_punctuation_kinds :
    ∀ id ∈ [11, 12, 13, 14, 15, 16],
      (state_at (build_nfa NFA.new) id).map (fun s => s.accepting_type) ∈
        [some TokenType.LPAREN, some TokenType.RPAREN, some TokenType.COMMA,
          some TokenType.COLON, some TokenType.DOT, some TokenType.END_OF_LINE] := by decide

set_option maxRecDepth 100000 in
theorem build_nfa_start_closure :
    epsilon_closure (build_nfa NFA.new) (build_nfa NFA.new).start_state = some [0] := by
  decide

set_option maxRecDepth 100000 in
theorem build_nfa_start_not_accepting :
    find_accepting (build_nfa NFA.new) [0] = some none := by decide

/-- Every scanning step over the automaton of `build_nfa` stays inside the set of ids it
is given: the automaton has no epsilon transition. -/
theorem build_nfa_closure_subset (ids r : List Int)
    (h : epsilon_closure_set (build_nfa NFA.new) ids = some r) : ∀ id ∈ r, id ∈ ids := by
  unfold epsilon_closure_set at h
  refine epsilon_closure_ids_mem _ build_nfa_wellFormed (fun id => id ∈ ids) ?_ ids [] r
    (fun _ hid => hid) (by simp) h
  intro t ht heps
  exact absurd heps (build_nfa_no_epsilon t ht)

/-- The automaton of `build_nfa` rejects every string except the six one-character strings
that lead from state 0 to a punctuation or end-of-line state. -/
theorem build_nfa_accepts_cases (s : List Char) (tt : TokenType) :
    accepts (build_nfa NFA.new) s tt = some (false, tt) ∨
    ∃ c kind, s = [c] ∧ accepts (build_nfa NFA.new) s tt = some (true, kind) ∧
      kind ∈ [TokenType.LPAREN, TokenType.RPAREN, TokenType.COMMA, TokenType.COLON,
        TokenType.DOT, TokenType.END_OF_LINE] := by
  have hacc : ∀ w, accepts (build_nfa NFA.new) w tt
      = accepts_from (build_nfa NFA.new) [0] w tt := by
    intro w
    simp [accepts, build_nfa_start_closure]
  rw [hacc]
  cases s with
  | nil =>
    left
    rw [accepts_from_nil, build_nfa_start_not_accepting]
  | cons c cs =>
    obtain ⟨next, hnext, hvalid⟩ := step_valid _ build_nfa_wellFormed [0] c
    have hsub : ∀ id ∈ next, id ∈ [11, 12, 13, 14, 15, 16] := by
      intro id hid
      have hmv := build_nfa_closure_subset _ _ hnext id hid
      obtain ⟨i, hi, t, ht, hfrom, _, hto⟩ := (mem_move _ _ _ _).1 hmv
      rw [List.mem_singleton] at hi
      subst hi
      rw [← hto]
      exact build_nfa_from_start t ht hfrom
    cases hemp : next.isEmpty with
    | true =>
      left
      have hnil : next = [] := List.isEmpty_iff.1 hemp
      subst hnil
      exact accepts_from_cons_empty _ _ _ _ _ hnext
    | false =>
      rw [accepts_from_cons _ _ _ _ _ _ hnext hemp]
      cases cs with
      | nil =>
        obtain ⟨r, hr⟩ := find_accepting_total _ next hvalid
        rw [accepts_from_nil, hr]
        cases r with
        | none => left; rfl
        | some st =>
          right
          refine ⟨c, st.accepting_type, rfl, ?_, ?_⟩
          · rfl
          · obtain ⟨id, hid, hst, _⟩ := find_accepting_some _ next st hr
            have hk := build_nfa_punctuation_kinds id (hsub id hid)
            rw [hst] at hk
            simpa using hk
      | cons c2 cs2 =>
        left
        apply accepts_from_cons_empty
        have hmove : move (build_nfa NFA.new) next c2 = [] := by
          apply List.eq_nil_iff_forall_not_mem.2
          intro y hy
          obtain ⟨i, hi, t, ht, hfrom, _, _⟩ := (mem_move _ _ _ _).1 hy
          exact build_nfa_punctuation_leaves t ht (by rw [hfrom]; exact hsub i hi)
        rw [hmove]
        rfl

/-! ## Token sequences of concrete inputs -/

set_option maxRecDepth 100000 in
/-- C3 (behaviour of the code on the end-to-end scenario). On `"add r3, r1, r2\n"` the
lexer returns every letter and digit as a one-character `UNKNOWN` token: the identifier
and register subgraphs are never entered from state 0. Only the commas and the newline are
recognised. -/
theorem tokenize_add_scenario :
    tokenize "add r3, r1, r2\n".toList = some
      [⟨TokenType.UNKNOWN, ['a'], 1, 1⟩, ⟨TokenType.UNKNOWN, ['d'], 1, 2⟩,
       ⟨TokenType.UNKNOWN, ['d'], 1, 3⟩, ⟨TokenType.UNKNOWN, ['r'], 1, 5⟩,
       ⟨TokenType.UNKNOWN, ['3'], 1, 6⟩, ⟨TokenType.COMMA, [','], 1, 7⟩,
       ⟨TokenType.UNKNOWN, ['r'], 1, 9⟩, ⟨TokenType.UNKNOWN, ['1'], 1, 10⟩,
       ⟨TokenType.COMMA, [','], 1, 11⟩, ⟨TokenType.UNKNOWN, ['r'], 1, 13⟩,
       ⟨TokenType.UNKNOWN, ['2'], 1, 14⟩, ⟨TokenType.END_OF_LINE, ['\n'], 2, 15⟩,
       ⟨TokenType.END_OF_FILE, [], 2, 1⟩] := by
  decide

set_option maxRecDepth 100000 in
/-- C4 (behaviour of the code: graph attachment). In the automaton of `build_nfa` the
transitions leaving state 0 are exactly the five punctuation transitions and the newline
transition, and there is no epsilon transition at all; so the identifier, register and
number subgraphs are not attached to state 0, and no input string is accepted with kind
`IDENTIFIER`, `REGISTER` or `NUMBER`. -/
theorem build_nfa_unattached_subgraphs :
    (((build_nfa NFA.new).transitions.filter (fun t => t.from_.id == 0)).map
        (fun t => (t.input, t.to_.id))
      = [('(', 11), (')', 12), (',', 13), (':', 14), ('.', 15), ('\n', 16)]) ∧
    ((build_nfa NFA.new).transitions.filter (fun t => t.input == epsilon) = []) ∧
    ∀ (s : List Char) (tt : TokenType),
      accepts (build_nfa NFA.new) s tt ≠ some (true, TokenType.IDENTIFIER) ∧
      accepts (build_nfa NFA.new) s tt ≠ some (true, TokenType.REGISTER) ∧
      accepts (build_nfa NFA.new) s tt ≠ some (true, TokenType.NUMBER) := by
  refine ⟨by decide, by decide, ?_⟩
  intro s tt
  rcases build_nfa_accepts_cases s tt with h | ⟨c, kind, _, h, hk⟩
  · rw [h]
    simp
  · rw [h]
    simp only [List.mem_cons, List.mem_singleton, List.not_mem_nil, or_false] at hk
    rcases hk with rfl | rfl | rfl | rfl | rfl | rfl <;> simp

set_option maxRecDepth 100000 in
/-- C5 (behaviour of the code on the register-cap scenario). On `"r123"` the lexer returns
four one-character `UNKNOWN` tokens and then `END_OF_FILE`: neither the register path nor
the number path is entered from state 0. -/
theorem tokenize_r123 :
    tokenize "r123".toList = some
      [⟨TokenType.UNKNOWN, ['r'], 1, 1⟩, ⟨TokenType.UNKNOWN, ['1'], 1, 2⟩,
       ⟨TokenType.UNKNOWN, ['2'], 1, 3⟩, ⟨TokenType.UNKNOWN, ['3'], 1, 4⟩,
       ⟨TokenType.END_OF_FILE, [], 1, 5⟩] := by
  decide

set_option maxRecDepth 100000 in
/-- C6 (behaviour of the code on the hex and decimal scenarios). On `"0x1A"` and on
`"0123"` the lexer returns four one-character `UNKNOWN` tokens and then `END_OF_FILE`: the
number subgraph is never entered from state 0. -/
theorem tokenize_hex_and_decimal :
    tokenize "0x1A".toList = some
      [⟨TokenType.UNKNOWN, ['0'], 1, 1⟩, ⟨TokenType.UNKNOWN, ['x'], 1, 2⟩,
       ⟨TokenType.UNKNOWN, ['1'], 1, 3⟩, ⟨TokenType.UNKNOWN, ['A'], 1, 4⟩,
       ⟨TokenType.END_OF_FILE, [], 1, 5⟩] ∧
    tokenize "0123".toList = some
      [⟨TokenType.UNKNOWN, ['0'], 1, 1⟩, ⟨TokenType.UNKNOWN, ['1'], 1, 2⟩,
       ⟨TokenType.UNKNOWN, ['2'], 1, 3⟩, ⟨TokenType.UNKNOWN, ['3'], 1, 4⟩,
       ⟨TokenType.END_OF_FILE, [], 1, 5⟩] := by
  constructor <;> decide

set_option maxRecDepth 100000 in
/-- C7 (behaviour of the code on the dotted-identifier scenario). On `"foo.bar"` the lexer
returns `UNKNOWN` for each letter and a `DOT` token for the dot, then `END_OF_FILE`: the
identifier subgraph is never entered from state 0, while the dot has a direct transition. -/
theorem tokenize_foo_bar :
    tokenize "foo.bar".toList = some
      [⟨TokenType.UNKNOWN, ['f'], 1, 1⟩, ⟨TokenType.UNKNOWN, ['o'], 1, 2⟩,
       ⟨TokenType.UNKNOWN, ['o'], 1, 3⟩, ⟨TokenType.DOT, ['.'], 1, 4⟩,
       ⟨TokenType.UNKNOWN, ['b'], 1, 5⟩, ⟨TokenType.UNKNOWN, ['a'], 1, 6⟩,
       ⟨TokenType.UNKNOWN, ['r'], 1, 7⟩, ⟨TokenType.END_OF_FILE, [], 1, 8⟩] := by
  decide

set_option maxRecDepth 100000 in
/-- C8 (behaviour of the code on the comment scenario). On `"add r1 #note\n"` the lexer
returns `UNKNOWN` for each of `a`, `d`, `d`, `r`, `1`, then `END_OF_LINE` and
`END_OF_FILE`; no token is produced for the comment text and `END_OF_FILE` reports
line 2. -/
theorem tokenize_comment_scenario :
    tokenize "add r1 #note\n".toList = some
      [⟨TokenType.UNKNOWN, ['a'], 1, 1⟩, ⟨TokenType.UNKNOWN, ['d'], 1, 2⟩,
       ⟨TokenType.UNKNOWN, ['d'], 1, 3⟩, ⟨TokenType.UNKNOWN, ['r'], 1, 5⟩,
       ⟨TokenType.UNKNOWN, ['1'], 1, 6⟩, ⟨TokenType.END_OF_LINE, ['\n'], 2, 1⟩,
       ⟨TokenType.END_OF_FILE, [], 2, 1⟩] := by
  decide

/-! ## Unknown characters and empty input -/

set_option maxRecDepth 100000 in
/-- C9 (unknown character). Over a well-formed automaton, whenever the cursor left by
`skip_whitespace` is on a character `c` and the automaton accepts no non-empty prefix of
the input from there, `next_token` returns the token `UNKNOWN` with text `c` at the line
and column of that cursor, and leaves the lexer with offset and column advanced by one and
nothing else changed. In particular `"@"` yields `UNKNOWN "@"` at line 1, column 1 and
then `END_OF_FILE`. -/
theorem next_token_unknown :
    (∀ (lx lx1 : Lexer) (c : Char), WellFormed lx.nfa → skip_whitespace lx = some lx1 →
      lx1.input[lx1.position]? = some c →
      (∀ k, 1 ≤ k → lx1.position + k ≤ lx1.input.length →
        ¬ Accepted lx1.nfa ((lx1.input.drop lx1.position).take k)) →
      next_token lx = some
        (⟨TokenType.UNKNOWN, [c], lx1.line, lx1.column⟩,
         { lx1 with position := lx1.position + 1, column := lx1.column + 1 })) ∧
    tokenize "@".toList = some
      [⟨TokenType.UNKNOWN, ['@'], 1, 1⟩, ⟨TokenType.END_OF_FILE, [], 1, 2⟩] := by
  refine ⟨?_, by decide⟩
  intro lx lx1 c hwf h1 hc hrej
  obtain ⟨lx1b, h1b, _, hnfa, _, _, _⟩ := skip_whitespace_spec lx
  rw [h1] at h1b
  simp only [Option.some.injEq] at h1b
  subst h1b
  rw [← hnfa] at hwf
  unfold next_token
  simp only [h1, hc]
  rcases longest_match_cases lx1.nfa hwf lx1.input lx1.position with
    ⟨hres, _⟩ | ⟨n, ty, hn1, hn2, _, hacc, _⟩
  · simp [hres]
  · exact absurd ⟨TokenType.UNKNOWN, ty, hacc _⟩
      (hrej n hn1 (by
        have hlt : lx1.position < lx1.input.length := (List.getElem?_eq_some.1 hc).1
        omega))

set_option maxRecDepth 100000 in
/-- Witness for C9: the input `" @"`, where one blank is skipped before the unknown
character. -/
theorem next_token_unknown_witness :
    WellFormed (Lexer.new " @".toList).nfa ∧
    skip_whitespace (Lexer.new " @".toList)
      = some { Lexer.new " @".toList with position := 1, column := 2 } ∧
    next_token (Lexer.new " @".toList) = some
      (⟨TokenType.UNKNOWN, ['@'], 1, 2⟩,
       { Lexer.new " @".toList with position := 2, column := 3 }) :=
  ⟨build_nfa_wellFormed, by decide,
    next_token_unknown.1 (Lexer.new " @".toList)
      { Lexer.new " @".toList with position := 1, column := 2 } '@'
      build_nfa_wellFormed (by decide) (by decide)
      (by
        intro k hk1 hk2
        have hk : k = 1 := by
          have : (Lexer.new " @".toList).input.length = 2 := by decide
          simp only at hk2
          omega
        subst hk
        rintro ⟨tt, kind, h⟩
        have h2 : accepts (build_nfa NFA.new) ['@'] tt = some (false, tt) := rfl
        have h3 : accepts (build_nfa NFA.new) ['@'] tt = some (true, kind) := h
        rw [h2] at h3
        simp at h3)⟩

set_option maxRecDepth 100000 in
/-- C10 (empty input). The first call to `next_token` on a lexer constructed over the
empty string returns `END_OF_FILE` with empty text at line 1, column 1, and leaves the
lexer unchanged. -/
theorem next_token_empty_input :
    next_token (Lexer.new "".toList)
      = some (⟨TokenType.END_OF_FILE, [], 1, 1⟩, Lexer.new "".toList) := by
  decide

/-! ## Helpers for single-character matches -/

theorem take_one_drop (input : List Char) (pos : Nat) (c : Char)
    (h : input[pos]? = some c) : (input.drop pos).take 1 = [c] := by
  obtain ⟨hlt, hget⟩ := List.getElem?_eq_some.1 h
  rw [List.drop_eq_getElem_cons hlt, hget]
  simp

/-- Over the automaton of `build_nfa`, `longest_match` either reports no match, and then
the character under the cursor is not accepted, or returns the single character under the
cursor with a punctuation or end-of-line kind. -/
theorem build_nfa_longest_match_cases (input : List Char) (start_pos : Nat) :
    (longest_match (build_nfa NFA.new) input start_pos = some ([], TokenType.UNKNOWN) ∧
      ∀ c, input[start_pos]? = some c →
        ∀ tt, accepts (build_nfa NFA.new) [c] tt = some (false, tt)) ∨
    ∃ c ty, input[start_pos]? = some c ∧
      longest_match (build_nfa NFA.new) input start_pos = some ([c], ty) ∧
      (∀ tt, accepts (build_nfa NFA.new) [c] tt = some (true, ty)) ∧
      ty ∈ [TokenType.LPAREN, TokenType.RPAREN, TokenType.COMMA, TokenType.COLON,
        TokenType.DOT, TokenType.END_OF_LINE] := by
  rcases longest_match_cases _ build_nfa_wellFormed input start_pos with
    ⟨hres, hrej⟩ | ⟨n, ty, hn1, hn2, hres, hacc, _⟩
  · refine Or.inl ⟨hres, ?_⟩
    intro c hc tt
    have hlt : start_pos < input.length := (List.getElem?_eq_some.1 hc).1
    have := hrej 1 (le_refl 1) (by omega) tt
    rw [take_one_drop input start_pos c hc] at this
    exact this
  · right
    have hlt : start_pos < input.length := by omega
    have hc : input[start_pos]? = some input[start_pos] := List.getElem?_eq_getElem hlt
    rcases build_nfa_accepts_cases ((input.drop start_pos).take n) TokenType.UNKNOWN with
      h | ⟨c, kind, hs, h, hk⟩
    · rw [hacc] at h
      simp at h
    · have hlen : ((input.drop start_pos).take n).length = n := by
        simp only [List.length_take, List.length_drop]
        omega
      have hn : n = 1 := by
        rw [hs] at hlen
        simpa using hlen.symm
      subst hn
      have hone := take_one_drop input start_pos _ hc
      rw [hone] at hs hres hacc h
      rw [hacc] at h
      simp only [Option.some.injEq, Prod.mk.injEq, true_and] at h
      subst h
      exact ⟨_, ty, hc, hres, hacc, hk⟩

/-- Once the cursor is at or past the end of the buffer, `next_token` returns the
`END_OF_FILE` token at the current line and column and leaves the lexer as it is. -/
theorem next_token_at_end (lx : Lexer) (h : lx.input[lx.position]? = none) :
    next_token lx = some (⟨TokenType.END_OF_FILE, [], lx.line, lx.column⟩, lx) := by
  have hskip : skip_whitespace lx = some lx := by
    unfold skip_whitespace skip_whitespace_loop
    simp [h]
  unfold next_token
  simp [hskip, h]

/-- Over the automaton of `build_nfa`, a call that returns `END_OF_FILE` leaves the cursor
at or past the end of the buffer and reports the cursor it leaves. -/
theorem next_token_eof_state (input : List Char) (position line column : Nat)
    (token : Token) (lx2 : Lexer)
    (h : next_token ⟨input, position, line, column, build_nfa NFA.new⟩ = some (token, lx2))
    (heof : token.type = TokenType.END_OF_FILE) :
    lx2.input[lx2.position]? = none ∧
      token = ⟨TokenType.END_OF_FILE, [], lx2.line, lx2.column⟩ := by
  obtain ⟨lx1, h1, hin, hnfa, _, _, _⟩ :=
    skip_whitespace_spec ⟨input, position, line, column, build_nfa NFA.new⟩
  simp only at hnfa
  unfold next_token at h
  simp only [h1] at h
  cases hc : lx1.input[lx1.position]? with
  | none =>
    simp only [hc, Option.some.injEq, Prod.mk.injEq] at h
    obtain ⟨h2, h3⟩ := h
    subst h3
    exact ⟨hc, h2.symm⟩
  | some c =>
    simp only [hc, hnfa] at h
    rcases build_nfa_longest_match_cases lx1.input lx1.position with
      ⟨hres, _⟩ | ⟨c2, ty, _, hres, _, hk⟩
    · simp only [hres] at h
      simp at h
      rw [← h.1] at heof
      simp at heof
    · simp only [hres] at h
      have hne : ty ≠ TokenType.UNKNOWN := by
        intro hu
        subst hu
        simp at hk
      have hb : (ty != TokenType.UNKNOWN) = true := by simpa using hne
      simp only [hb, if_true, Option.some.injEq, Prod.mk.injEq] at h
      rw [← h.1] at heof
      simp only at heof
      subst heof
      simp at hk

/-! ## End of file is a fixed point -/

/-- C11 (end-of-file is idempotent). For every input and every cursor, once a call to
`next_token` on a lexer over the automaton of `build_nfa` has returned `END_OF_FILE`, the
token has empty text and every later call returns the identical token and leaves the
lexer (offset, line and column included) unchanged. -/
theorem next_token_eof_idempotent (input : List Char) (position line column : Nat)
    (token : Token) (lx2 : Lexer)
    (h : next_token ⟨input, position, line, column, build_nfa NFA.new⟩ = some (token, lx2))
    (heof : token.type = TokenType.END_OF_FILE) :
    token.value = [] ∧ ∀ n, next_token_nth n lx2 = some (token, lx2) := by
  obtain ⟨hend, htok⟩ := next_token_eof_state input position line column token lx2 h heof
  have hfix : next_token lx2 = some (token, lx2) := by
    rw [htok]
    exact next_token_at_end lx2 hend
  refine ⟨by rw [htok], ?_⟩
  intro n
  induction n with
  | zero => exact hfix
  | succ n ih =>
    unfold next_token_nth
    simp only [hfix]
    exact ih

set_option maxRecDepth 100000 in
/-- Witness for C11: on the input `" #c"` the first call skips the blank and the comment
and returns `END_OF_FILE` at line 1, column 1; every later call returns the same. -/
theorem next_token_eof_idempotent_witness :
    next_token (Lexer.new " #c".toList)
      = some (⟨TokenType.END_OF_FILE, [], 1, 1⟩,
          { Lexer.new " #c".toList with position := 3, column := 1 }) ∧
    ∀ n, next_token_nth n { Lexer.new " #c".toList with position := 3, column := 1 }
      = some (⟨TokenType.END_OF_FILE, [], 1, 1⟩,
          { Lexer.new " #c".toList with position := 3, column := 1 }) :=
  ⟨by decide,
    (next_token_eof_idempotent " #c".toList 0 1 1 ⟨TokenType.END_OF_FILE, [], 1, 1⟩
      { Lexer.new " #c".toList with position := 3, column := 1 } (by decide) rfl).2⟩

/-! ## Single-character tokens -/

set_option maxRecDepth 100000 in
/-- C12 (behaviour of the code on an end-of-line token). On `",\n"` the newline is read
with the cursor at line 1, column 2; the `END_OF_LINE` token reports column 2 but line 2,
the line after the increment, and the lexer is left at line 2, column 1. -/
theorem tokenize_comma_newline :
    tokenize ",\n".toList = some
      [⟨TokenType.COMMA, [','], 1, 1⟩, ⟨TokenType.END_OF_LINE, ['\n'], 2, 2⟩,
       ⟨TokenType.END_OF_FILE, [], 2, 1⟩] ∧
    next_token { Lexer.new ",\n".toList with position := 1, column := 2 }
      = some (⟨TokenType.END_OF_LINE, ['\n'], 2, 2⟩,
          { Lexer.new ",\n".toList with position := 2, line := 2, column := 1 }) := by
  constructor <;> decide

set_option maxRecDepth 100000 in
theorem build_nfa_accepts_punctuation :
    ∀ c ∈ ['(', ')', ',', ':', '.', '\n'],
      accepts (build_nfa NFA.new) [c] TokenType.UNKNOWN = some (true, punctuation_kind c) := by
  decide

/-- C13 (single-character punctuation and newline). For every input and every cursor,
when the cursor left by `skip_whitespace` is on one of `(`, `)`, `,`, `:`, `.` or a
newline, `next_token` over the automaton of `build_nfa` returns a token whose text is
exactly that character and whose kind is respectively `LPAREN`, `RPAREN`, `COMMA`,
`COLON`, `DOT` or `END_OF_LINE`, and advances the offset by one, whatever follows. -/
theorem next_token_punctuation (input : List Char) (position line column : Nat)
    (lx1 : Lexer) (c : Char)
    (hskip : skip_whitespace ⟨input, position, line, column, build_nfa NFA.new⟩ = some lx1)
    (hc : lx1.input[lx1.position]? = some c)
    (hp : c ∈ ['(', ')', ',', ':', '.', '\n']) :
    ∃ token lx2,
      next_token ⟨input, position, line, column, build_nfa NFA.new⟩ = some (token, lx2) ∧
      token.value = [c] ∧ token.type = punctuation_kind c ∧
      token.type ∈ [TokenType.LPAREN, TokenType.RPAREN, TokenType.COMMA, TokenType.COLON,
        TokenType.DOT, TokenType.END_OF_LINE] ∧
      lx2.position = lx1.position + 1 := by
  obtain ⟨lx1b, h1, _, hnfa, _, _, _⟩ :=
    skip_whitespace_spec ⟨input, position, line, column, build_nfa NFA.new⟩
  rw [hskip] at h1
  simp only [Option.some.injEq] at h1
  subst h1
  simp only at hnfa
  have hkind := build_nfa_accepts_punctuation c hp
  unfold next_token
  simp only [hskip, hc, hnfa]
  rcases build_nfa_longest_match_cases lx1.input lx1.position with
    ⟨_, hrej⟩ | ⟨c2, ty, hc2, hres, hacc, hk⟩
  · have := hrej c hc TokenType.UNKNOWN
    rw [hkind] at this
    simp at this
  · rw [hc] at hc2
    simp only [Option.some.injEq] at hc2
    subst hc2
    have hty := hacc TokenType.UNKNOWN
    rw [hkind] at hty
    simp only [Option.some.injEq, Prod.mk.injEq, true_and] at hty
    have hne : ty ≠ TokenType.UNKNOWN := by
      intro hu
      rw [hu] at hk
      simp at hk
    have hb : (ty != TokenType.UNKNOWN) = true := by simpa using hne
    simp only [hres, hb, if_true]
    refine ⟨_, _, rfl, rfl, hty.symm, hk, ?_⟩
    by_cases heol : ty = TokenType.END_OF_LINE
    · simp [heol]
    · have hb2 : (ty == TokenType.END_OF_LINE) = false := by simpa using heol
      simp [hb2]

set_option maxRecDepth 100000 in
/-- Witness for C13: on `" (x"` the blank is skipped and the parenthesis is returned as
`LPAREN` although a letter follows. -/
theorem next_token_punctuation_witness :
    skip_whitespace (Lexer.new " (x".toList)
      = some { Lexer.new " (x".toList with position := 1, column := 2 } ∧
    ∃ token lx2, next_token (Lexer.new " (x".toList) = some (token, lx2) ∧
      token.value = ['('] ∧ token.type = TokenType.LPAREN ∧ lx2.position = 2 := by
  refine ⟨by decide, ?_⟩
  obtain ⟨token, lx2, h1, h2, h3, _, h5⟩ :=
    next_token_punctuation " (x".toList 0 1 1
      { Lexer.new " (x".toList with position := 1, column := 2 } '('
      (by decide) (by decide) (by decide)
  exact ⟨token, lx2, h1, h2, h3, h5⟩

/-! ## The no-match signal -/

/-- C17 (no abort on any input). Over the automaton of `build_nfa`: every scanning step
`epsilon_closure(move(current_states, c))` returns a set whose ids are all valid indices
into the state array, so the accepting-state scan over it is defined; and for every input
and every cursor `next_token` returns a token, leaving a cursor that started within the
buffer within the buffer. -/
theorem next_token_no_abort :
    (∀ (current_states : List Int) (c : Char),
      ∃ next, epsilon_closure_set (build_nfa NFA.new) (move (build_nfa NFA.new) current_states c)
          = some next ∧
        (∀ id ∈ next, ∃ s, state_at (build_nfa NFA.new) id = some s) ∧
        ∃ r, find_accepting (build_nfa NFA.new) next = some r) ∧
    (∀ (input : List Char) (position line column : Nat),
      ∃ token lx2,
        next_token ⟨input, position, line, column, build_nfa NFA.new⟩ = some (token, lx2) ∧
        (position ≤ input.length → lx2.position ≤ input.length)) := by
  constructor
  · intro current_states c
    obtain ⟨next, hnext, hvalid⟩ := step_valid _ build_nfa_wellFormed current_states c
    exact ⟨next, hnext, hvalid, find_accepting_total _ next hvalid⟩
  · intro input position line column
    obtain ⟨token, lx2, hnext, _, _, hbound, _⟩ :=
      next_token_spec ⟨input, position, line, column, build_nfa NFA.new⟩ build_nfa_wellFormed
    exact ⟨token, lx2, hnext, hbound⟩

/-! ## The automaton after construction -/

set_option maxRecDepth 100000 in
/-- C19 (well-formedness after construction). The automaton made by `NFA::NFA()` followed
by `build_nfa` has the seventeen states listed, the state at index `i` having id `i`; both
ends of every transition are states of the array, found at the index given by their id;
the start state is the non-accepting state 0, stored at index 0, and no other state has
id 0; every accepting state carries the one kind listed with it. -/
theorem build_nfa_invariants :
    (build_nfa NFA.new).states =
      [⟨0, false, TokenType.UNKNOWN⟩, ⟨1, false, TokenType.UNKNOWN⟩,
       ⟨2, true, TokenType.IDENTIFIER⟩, ⟨3, false, TokenType.UNKNOWN⟩,
       ⟨4, false, TokenType.UNKNOWN⟩, ⟨5, true, TokenType.REGISTER⟩,
       ⟨6, true, TokenType.REGISTER⟩, ⟨7, false, TokenType.UNKNOWN⟩,
       ⟨8, true, TokenType.NUMBER⟩, ⟨9, false, TokenType.UNKNOWN⟩,
       ⟨10, true, TokenType.NUMBER⟩, ⟨11, true, TokenType.LPAREN⟩,
       ⟨12, true, TokenType.RPAREN⟩, ⟨13, true, TokenType.COMMA⟩,
       ⟨14, true, TokenType.COLON⟩, ⟨15, true, TokenType.DOT⟩,
       ⟨16, true, TokenType.END_OF_LINE⟩] ∧
    (∀ i : Fin (build_nfa NFA.new).states.length,
      ((build_nfa NFA.new).states.get i).id = ((i : Nat) : Int)) ∧
    (∀ t ∈ (build_nfa NFA.new).transitions,
      state_at (build_nfa NFA.new) t.from_.id = some t.from_ ∧
      state_at (build_nfa NFA.new) t.to_.id = some t.to_) ∧
    (build_nfa NFA.new).start_state = ⟨0, false, TokenType.UNKNOWN⟩ ∧
    state_at (build_nfa NFA.new) 0 = some (build_nfa NFA.new).start_state ∧
    ((build_nfa NFA.new).states.filter (fun s => s.id == 0)).length = 1 := by
  refine ⟨by decide, by decide, by decide, by decide, by decide, by decide⟩

/-! ## Comment skipping -/

/-- The comment loop stops exactly at the first newline at or after its start, or at
the end of the buffer when there is none. -/
theorem skip_comment_exact (input : List Char) :
    ∀ (fuel position : Nat), 1 ≤ fuel → input.length + 1 ≤ position + fuel →
      ∃ p, skip_comment input fuel position = some p ∧ position ≤ p ∧
        (position ≤ input.length → p ≤ input.length) ∧
        (∀ j, position ≤ j → j < p → input[j]? ≠ some '\n') ∧
        (input[p]? = none ∨ input[p]? = some '\n') := by
  intro fuel
  induction fuel with
  | zero => intro position h; omega
  | succ fuel ih =>
    intro position _ hfuel
    unfold skip_comment
    cases hc : input[position]? with
    | none =>
      exact ⟨position, rfl, le_refl _, fun h => h, fun j h1 h2 => by omega, Or.inl hc⟩
    | some c =>
      have hlt : position < input.length := (List.getElem?_eq_some.1 hc).1
      by_cases hnl : c = '\n'
      · subst hnl
        exact ⟨position, by simp, le_refl _, fun h => h, fun j h1 h2 => by omega, Or.inr hc⟩
      · obtain ⟨p, hp, hle, hin, hno, hstop⟩ := ih (position + 1) (by omega) (by omega)
        refine ⟨p, by simp [hnl, hp], by omega, fun _ => hin (by omega), ?_, hstop⟩
        intro j h1 h2
        rcases Nat.eq_or_lt_of_le h1 with rfl | hlt2
        · rw [hc]
          simpa using hnl
        · exact hno j (by omega) h2

set_option maxRecDepth 100000 in
/-- C20 (comment skipping). Whenever the loop of `skip_whitespace` is on a `#` (with fuel
for the rest of the buffer, as it always has), it finishes with the offset `p` moved
forward to the first newline after the `#`, or to the end of the input when there is none,
with the column set to 1, and with the line, the input and the automaton unchanged: no
character in between is a newline and the newline itself is not consumed. In particular on
`"  #c"`, where the comment runs to the end of the buffer, `END_OF_FILE` is reported at
line 1, column 1. -/
theorem skip_whitespace_comment :
    (∀ (fuel : Nat) (lx : Lexer), lx.input[lx.position]? = some '#' →
      lx.input.length + 1 ≤ lx.position + fuel →
      ∃ p, skip_whitespace_loop fuel lx = some { lx with position := p, column := 1 } ∧
        lx.position < p ∧ p ≤ lx.input.length ∧
        (∀ j, lx.position ≤ j → j < p → lx.input[j]? ≠ some '\n') ∧
        (p = lx.input.length ∨ lx.input[p]? = some '\n')) ∧
    tokenize "  #c".toList = some [⟨TokenType.END_OF_FILE, [], 1, 1⟩] := by
  refine ⟨?_, by decide⟩
  intro fuel lx hc hfuel
  have hlt : lx.position < lx.input.length := (List.getElem?_eq_some.1 hc).1
  obtain ⟨f, rfl⟩ : ∃ f, fuel = f + 2 := ⟨fuel - 2, by omega⟩
  obtain ⟨p, hp, hle, hin, hno, hstop⟩ :=
    skip_comment_exact lx.input (lx.input.length + 1) lx.position (by omega) (by omega)
  have hadv : lx.position < p := by
    rcases Nat.eq_or_lt_of_le hle with heq | hlt2
    · rw [← heq, hc] at hstop
      rcases hstop with h | h
      · simp at h
      · exact absurd h (by decide)
    · exact hlt2
  have hpl : p ≤ lx.input.length := hin (by omega)
  refine ⟨p, ?_, hadv, hpl, hno, ?_⟩
  · unfold skip_whitespace_loop
    simp only [hc, hp]
    have h1 : (('#' : Char) == ' ' || ('#' : Char) == '\t') = false := by decide
    have h2 : (('#' : Char) == '#') = true := by decide
    simp only [h1, h2, Bool.false_eq_true, if_false, if_true]
    unfold skip_whitespace_loop
    rcases hstop with hnone | hnl
    · simp only [hnone]
    · simp only [hnl]
      have h3 : (('\n' : Char) == ' ' || ('\n' : Char) == '\t') = false := by decide
      have h4 : (('\n' : Char) == '#') = false := by decide
      simp only [h3, h4, Bool.false_eq_true, if_false]
  · rcases hstop with hnone | hnl
    · left
      have := List.getElem?_eq_none_iff.1 hnone
      omega
    · exact Or.inr hnl

set_option maxRecDepth 100000 in
/-- Witness for C20: on `"#c\nx"` the comment is skipped up to the newline at offset 2,
which is not consumed. -/
theorem skip_whitespace_comment_witness :
    (Lexer.new "#c\nx".toList).input[(Lexer.new "#c\nx".toList).position]? = some '#' ∧
    skip_whitespace (Lexer.new "#c\nx".toList)
      = some { Lexer.new "#c\nx".toList with position := 2, column := 1 } ∧
    ∃ p, skip_whitespace_loop 5 (Lexer.new "#c\nx".toList)
        = some { Lexer.new "#c\nx".toList with position := p, column := 1 } ∧
      (Lexer.new "#c\nx".toList).position < p ∧ p ≤ (Lexer.new "#c\nx".toList).input.length ∧
      (∀ j, (Lexer.new "#c\nx".toList).position ≤ j → j < p →
        (Lexer.new "#c\nx".toList).input[j]? ≠ some '\n') ∧
      (p = (Lexer.new "#c\nx".toList).input.length ∨
        (Lexer.new "#c\nx".toList).input[p]? = some '\n') :=
  ⟨by decide, by decide,
    skip_whitespace_comment.1 5 (Lexer.new "#c\nx".toList) (by decide) (by decide)⟩

/-! ## Sets of ids are strictly increasing lists -/

theorem sorted_set_insert (x : Int) (s : List Int) (h : s.Sorted (· < ·)) :
    (set_insert x s).Sorted (· < ·) := by
  induction s with
  | nil => simp [set_insert]
  | cons y ys ih =>
    rw [List.sorted_cons] at h
    unfold set_insert
    split_ifs with h1 h2
    · rw [List.sorted_cons]
      refine ⟨?_, List.sorted_cons.2 h⟩
      intro b hb
      rcases List.mem_cons.1 hb with rfl | hb
      · exact h1
      · exact lt_trans h1 (h.1 b hb)
    · exact List.sorted_cons.2 h
    · rw [List.sorted_cons]
      refine ⟨?_, ih h.2⟩
      intro b hb
      rcases (mem_set_insert _ _ _).1 hb with rfl | hb
      · omega
      · exact h.1 b hb

theorem sorted_set_insert_all (xs s : List Int) (h : s.Sorted (· < ·)) :
    (set_insert_all xs s).Sorted (· < ·) := by
  unfold set_insert_all
  induction xs generalizing s with
  | nil => exact h
  | cons x xs ih => exact ih _ (sorted_set_insert x s h)

/-- Two strictly increasing lists with the same members are equal. -/
theorem sorted_ext (l1 l2 : List Int) (h1 : l1.Sorted (· < ·)) (h2 : l2.Sorted (· < ·))
    (h : ∀ x, x ∈ l1 ↔ x ∈ l2) : l1 = l2 :=
  List.eq_of_perm_of_sorted ((List.perm_ext_iff_of_nodup h1.nodup h2.nodup).2 h) h1 h2

theorem epsilon_closure_loop_sorted (transitions : List NFATransition) :
    ∀ (fuel : Nat) (closure : List Int) (stack : List NFAState) (r : List Int),
      closure.Sorted (· < ·) →
      epsilon_closure_loop transitions fuel closure stack = some r → r.Sorted (· < ·) := by
  intro fuel
  induction fuel with
  | zero =>
    intro closure stack r hs h
    cases stack with
    | nil =>
      simp only [epsilon_closure_loop, Option.some.injEq] at h
      exact h ▸ hs
    | cons st rest => simp [epsilon_closure_loop] at h
  | succ fuel ih =>
    intro closure stack r hs h
    cases stack with
    | nil =>
      simp only [epsilon_closure_loop, Option.some.injEq] at h
      exact h ▸ hs
    | cons current stack =>
      unfold epsilon_closure_loop at h
      split_ifs at h with hmem
      · exact ih closure stack r hs h
      · exact ih _ _ r (sorted_set_insert _ _ hs) h

theorem move_sorted (nfa : NFA) (state_ids : List Int) (c : Char) :
    (move nfa state_ids c).Sorted (· < ·) := by
  unfold move
  suffices h : ∀ (ids acc : List Int), acc.Sorted (· < ·) →
      (ids.foldl
        (fun new_states id =>
          nfa.transitions.foldl
            (fun acc trans =>
              if trans.from_.id == id && trans.input == c then set_insert trans.to_.id acc
              else acc)
            new_states)
        acc).Sorted (· < ·) from h state_ids [] List.sorted_nil
  intro ids
  induction ids with
  | nil => intro acc h; exact h
  | cons id ids ih =>
    intro acc h
    apply ih
    generalize nfa.transitions = ts
    induction ts generalizing acc with
    | nil => exact h
    | cons t ts iht =>
      simp only [List.foldl_cons]
      apply iht
      split_ifs
      · exact sorted_set_insert _ _ h
      · exact h

/-! ## The single-state closure is the set of epsilon-reachable ids -/

/-- When every epsilon transition leaving the closure so far leads into the closure or to
a stacked state, the result of the loop of `epsilon_closure` contains the closure and the
stacked ids and is closed under epsilon transitions. -/
theorem epsilon_closure_loop_closed (transitions : List NFATransition) :
    ∀ (fuel : Nat) (closure : List Int) (stack : List NFAState) (r : List Int),
      (∀ t ∈ transitions, t.input = epsilon → t.from_.id ∈ closure →
        t.to_.id ∈ closure ∨ ∃ st ∈ stack, st.id = t.to_.id) →
      epsilon_closure_loop transitions fuel closure stack = some r →
      (∀ id ∈ closure, id ∈ r) ∧ (∀ st ∈ stack, st.id ∈ r) ∧
        (∀ t ∈ transitions, t.input = epsilon → t.from_.id ∈ r → t.to_.id ∈ r) := by
  intro fuel
  induction fuel with
  | zero =>
    intro closure stack r hinv h
    cases stack with
    | nil =>
      simp only [epsilon_closure_loop, Option.some.injEq] at h
      subst h
      refine ⟨fun _ h => h, by simp, ?_⟩
      intro t ht he hf
      rcases hinv t ht he hf with h | ⟨st, hst, _⟩
      · exact h
      · simp at hst
    | cons st rest => simp [epsilon_closure_loop] at h
  | succ fuel ih =>
    intro closure stack r hinv h
    cases stack with
    | nil =>
      simp only [epsilon_closure_loop, Option.some.injEq] at h
      subst h
      refine ⟨fun _ h => h, by simp, ?_⟩
      intro t ht he hf
      rcases hinv t ht he hf with h | ⟨st, hst, _⟩
      · exact h
      · simp at hst
    | cons current stack =>
      unfold epsilon_closure_loop at h
      split_ifs at h with hmem
      · obtain ⟨hc, hs, hcl⟩ := ih closure stack r (by
          intro t ht he hf
          rcases hinv t ht he hf with h | ⟨st, hst, hid⟩
          · exact Or.inl h
          · rcases List.mem_cons.1 hst with rfl | hst
            · exact Or.inl (hid ▸ hmem)
            · exact Or.inr ⟨st, hst, hid⟩) h
        refine ⟨hc, ?_, hcl⟩
        intro st hst
        rcases List.mem_cons.1 hst with rfl | hst
        · exact hc _ hmem
        · exact hs st hst
      · obtain ⟨hc, hs, hcl⟩ := ih _ _ r (by
          intro t ht he hf
          rcases (mem_set_insert _ _ _).1 hf with hf | hf
          · right
            refine ⟨t.to_, ?_, rfl⟩
            apply List.mem_append_left
            rw [List.mem_reverse]
            unfold epsilon_targets
            refine List.mem_map.2 ⟨t, List.mem_filter.2 ⟨ht, ?_⟩, rfl⟩
            simp [hf, he]
          · rcases hinv t ht he hf with h | ⟨st, hst, hid⟩
            · exact Or.inl ((mem_set_insert _ _ _).2 (Or.inr h))
            · rcases List.mem_cons.1 hst with rfl | hst
              · exact Or.inl ((mem_set_insert _ _ _).2 (Or.inl hid.symm))
              · exact Or.inr ⟨st, List.mem_append_right _ hst, hid⟩) h
        refine ⟨fun id hid => hc id ((mem_set_insert _ _ _).2 (Or.inr hid)), ?_, hcl⟩
        intro st hst
        rcases List.mem_cons.1 hst with rfl | hst
        · exact hc _ ((mem_set_insert _ _ _).2 (Or.inl rfl))
        · exact hs st (List.mem_append_right _ hst)

/-- The single-state closure returns the strictly increasing list of the ids reachable
from the state by epsilon transitions. -/
theorem epsilon_closure_spec (nfa : NFA) (s : NFAState) :
    ∃ r, epsilon_closure nfa s = some r ∧ r.Sorted (· < ·) ∧
      ∀ id, id ∈ r ↔ EpsReach nfa s.id id := by
  obtain ⟨r, hr⟩ := epsilon_closure_terminates nfa s
  refine ⟨r, hr, ?_, ?_⟩
  · unfold epsilon_closure at hr
    exact epsilon_closure_loop_sorted _ _ [] [s] r (List.sorted_nil) hr
  · unfold epsilon_closure at hr
    intro id
    constructor
    · intro hid
      refine epsilon_closure_loop_mem nfa.transitions (EpsReach nfa s.id) ?_ _ [] [s] r
        (by simp) ?_ hr id hid
      · intro t ht he hf
        exact Relation.ReflTransGen.tail hf ⟨t, ht, rfl, he, rfl⟩
      · intro st hst
        rw [List.mem_singleton] at hst
        subst hst
        exact Relation.ReflTransGen.refl
    · intro hreach
      obtain ⟨_, hs, hcl⟩ :=
        epsilon_closure_loop_closed nfa.transitions _ [] [s] r (by simp) hr
      induction hreach with
      | refl => exact hs s (List.mem_singleton.2 rfl)
      | tail _ hstep ih =>
        obtain ⟨t, ht, hf, he, hto⟩ := hstep
        rw [← hto]
        exact hcl t ht he (hf ▸ ih)

set_option maxRecDepth 100000 in
/-- C14 (epsilon-closure correctness and totality). For every automaton, well-formed or
not, with or without epsilon cycles, and every state `s`, `epsilon_closure(s)` returns, and
what it returns is a strictly increasing list whose members are exactly the ids reachable
from `s.id` by zero or more epsilon transitions; in particular it contains `s.id`. On the
sample automaton with the epsilon cycle `0 → 1 → 2 → 0` the closure of the start state is
`{0, 1, 2}`. -/
theorem epsilon_closure_exact :
    (∀ (nfa : NFA) (s : NFAState),
      ∃ r, epsilon_closure nfa s = some r ∧ r.Sorted (· < ·) ∧
        (∀ id, id ∈ r ↔ EpsReach nfa s.id id) ∧ s.id ∈ r) ∧
    epsilon_closure eps_cycle_nfa eps_cycle_nfa.start_state = some [0, 1, 2] := by
  refine ⟨?_, by decide⟩
  intro nfa s
  obtain ⟨r, hr, hs, hmem⟩ := epsilon_closure_spec nfa s
  exact ⟨r, hr, hs, hmem, (hmem s.id).2 Relation.ReflTransGen.refl⟩

/-! ## `move` is the set of targets of the transitions carrying the symbol -/

set_option maxRecDepth 100000 in
/-- C15, as stated, fails for the symbol with code 0: on the sample automaton with the
epsilon transition `0 → 1`, `move({0}, NUL)` is `{1}`, although no non-epsilon transition
leaves state 0. -/
theorem move_nul_follows_epsilon :
    move eps_cycle_nfa [0] (Char.ofNat 0) = [1] ∧
    ¬ (∀ y, y ∈ move eps_cycle_nfa [0] (Char.ofNat 0) ↔
        ∃ id ∈ [0], ∃ t ∈ eps_cycle_nfa.transitions,
          t.from_.id = id ∧ t.input ≠ epsilon ∧ t.input = Char.ofNat 0 ∧ t.to_.id = y) := by
  refine ⟨by decide, ?_⟩
  intro h
  have h1 : (1 : Int) ∈ move eps_cycle_nfa [0] (Char.ofNat 0) := by decide
  obtain ⟨_, _, t, _, _, hne, heq, _⟩ := (h 1).1 h1
  exact hne heq

/-- C15, amended (move correctness for symbols other than NUL). For every automaton, every
set `S` of state ids and every input symbol `c` other than the character with code 0,
`move(S, c)` is a strictly increasing list whose members are exactly the ids `y` such that
some non-epsilon transition labelled `c` goes from a state in `S` to `y`; no epsilon
transition contributes, and the result is empty when there is no such transition. -/
theorem move_exact (nfa : NFA) (state_ids : List Int) (c : Char) (hc : c ≠ epsilon) :
    (move nfa state_ids c).Sorted (· < ·) ∧
    (∀ y, y ∈ move nfa state_ids c ↔
      ∃ id ∈ state_ids, ∃ t ∈ nfa.transitions,
        t.from_.id = id ∧ t.input ≠ epsilon ∧ t.input = c ∧ t.to_.id = y) ∧
    ((¬ ∃ id ∈ state_ids, ∃ t ∈ nfa.transitions,
        t.from_.id = id ∧ t.input ≠ epsilon ∧ t.input = c) → move nfa state_ids c = []) := by
  have hmem : ∀ y, y ∈ move nfa state_ids c ↔
      ∃ id ∈ state_ids, ∃ t ∈ nfa.transitions,
        t.from_.id = id ∧ t.input ≠ epsilon ∧ t.input = c ∧ t.to_.id = y := by
    intro y
    rw [mem_move]
    constructor
    · rintro ⟨id, hid, t, ht, hf, hi, hto⟩
      exact ⟨id, hid, t, ht, hf, by rw [hi]; exact hc, hi, hto⟩
    · rintro ⟨id, hid, t, ht, hf, _, hi, hto⟩
      exact ⟨id, hid, t, ht, hf, hi, hto⟩
  refine ⟨move_sorted nfa state_ids c, hmem, ?_⟩
  intro hnone
  apply List.eq_nil_iff_forall_not_mem.2
  intro y hy
  obtain ⟨id, hid, t, ht, hf, hne, hi, _⟩ := (hmem y).1 hy
  exact hnone ⟨id, hid, t, ht, hf, hne, hi⟩

set_option maxRecDepth 100000 in
/-- Witness for the amended C15: on the sample automaton with an epsilon cycle, moving from
`{0, 1, 2}` on `a` gives `{3}`, the target of the only transition labelled `a`. -/
theorem move_exact_witness :
    'a' ≠ epsilon ∧ move eps_cycle_nfa [0, 1, 2] 'a' = [3] ∧
    (∀ y, y ∈ move eps_cycle_nfa [0, 1, 2] 'a' ↔
      ∃ id ∈ [0, 1, 2], ∃ t ∈ eps_cycle_nfa.transitions,
        t.from_.id = id ∧ t.input ≠ epsilon ∧ t.input = 'a' ∧ t.to_.id = y) :=
  ⟨by decide, by decide, (move_exact eps_cycle_nfa [0, 1, 2] 'a' (by decide)).2.1⟩

/-! ## Active sets are strictly increasing, so the accepting-state scan finds the lowest id -/

theorem epsilon_closure_ids_sorted (nfa : NFA) :
    ∀ (ids closure r : List Int), closure.Sorted (· < ·) →
      epsilon_closure_ids nfa closure ids = some r → r.Sorted (· < ·) := by
  intro ids
  induction ids with
  | nil =>
    intro closure r hs h
    simp only [epsilon_closure_ids, Option.some.injEq] at h
    exact h ▸ hs
  | cons id ids ih =>
    intro closure r hs h
    unfold epsilon_closure_ids at h
    cases hst : state_at nfa id with
    | none => simp [hst] at h
    | some s =>
      cases hsc : epsilon_closure nfa s with
      | none => simp [hst, hsc] at h
      | some sc =>
        simp only [hst, hsc] at h
        exact ih _ r (sorted_set_insert_all sc closure hs) h

theorem epsilon_closure_set_sorted (nfa : NFA) (ids r : List Int)
    (h : epsilon_closure_set nfa ids = some r) : r.Sorted (· < ·) :=
  epsilon_closure_ids_sorted nfa ids [] r List.sorted_nil h

theorem accepts_loop_sorted (nfa : NFA) :
    ∀ (cs : List Char) (c : Char) (current_states final : List Int),
      accepts_loop nfa current_states (c :: cs) = some final → final.Sorted (· < ·) := by
  intro cs
  induction cs with
  | nil =>
    intro c cur final h
    unfold accepts_loop at h
    cases hn : epsilon_closure_set nfa (move nfa cur c) with
    | none => simp [hn] at h
    | some next =>
      simp only [hn] at h
      have hs := epsilon_closure_set_sorted nfa _ next hn
      split_ifs at h
      · simp only [Option.some.injEq] at h
        exact h ▸ hs
      · simp only [accepts_loop, Option.some.injEq] at h
        exact h ▸ hs
  | cons c2 cs ih =>
    intro c cur final h
    unfold accepts_loop at h
    cases hn : epsilon_closure_set nfa (move nfa cur c) with
    | none => simp [hn] at h
    | some next =>
      simp only [hn] at h
      split_ifs at h
      · simp only [Option.some.injEq] at h
        exact h ▸ epsilon_closure_set_sorted nfa _ next hn
      · exact ih c2 next final h

/-- On a strictly increasing list the accepting-state scan returns the state of the least
id whose state is accepting. -/
theorem find_accepting_lowest (nfa : NFA) :
    ∀ (ids : List Int) (s : NFAState), ids.Sorted (· < ·) →
      find_accepting nfa ids = some (some s) →
      ∃ id ∈ ids, state_at nfa id = some s ∧ s.is_accepting = true ∧
        ∀ j ∈ ids, ∀ s2, state_at nfa j = some s2 → s2.is_accepting = true → id ≤ j := by
  intro ids
  induction ids with
  | nil => intro s _ h; simp [find_accepting] at h
  | cons a rest ih =>
    intro s hsorted h
    rw [List.sorted_cons] at hsorted
    unfold find_accepting at h
    cases hst : state_at nfa a with
    | none => simp [hst] at h
    | some st =>
      simp only [hst] at h
      split_ifs at h with hacc
      · simp only [Option.some.injEq] at h
        subst h
        refine ⟨a, List.mem_cons_self _ _, hst, hacc, ?_⟩
        intro j hj s2 _ _
        rcases List.mem_cons.1 hj with rfl | hj
        · exact le_refl _
        · exact le_of_lt (hsorted.1 j hj)
      · obtain ⟨id, hid, hs, hsa, hmin⟩ := ih s hsorted.2 h
        refine ⟨id, List.mem_cons_of_mem _ hid, hs, hsa, ?_⟩
        intro j hj s2 hs2 hacc2
        rcases List.mem_cons.1 hj with rfl | hj
        · rw [hst] at hs2
          simp only [Option.some.injEq] at hs2
          subst hs2
          exact absurd hacc2 hacc
        · exact hmin j hj s2 hs2 hacc2

/-! ## The result does not depend on the order of the transitions -/

theorem state_at_congr (nfa nfa2 : NFA) (hst : nfa2.states = nfa.states) (id : Int) :
    state_at nfa2 id = state_at nfa id := by
  unfold state_at
  rw [hst]

theorem find_accepting_congr (nfa nfa2 : NFA) (hst : nfa2.states = nfa.states) :
    ∀ ids : List Int, find_accepting nfa2 ids = find_accepting nfa ids := by
  intro ids
  induction ids with
  | nil => rfl
  | cons id ids ih =>
    unfold find_accepting
    rw [state_at_congr nfa nfa2 hst, ih]

theorem move_congr (nfa nfa2 : NFA)
    (hmem : ∀ t, t ∈ nfa2.transitions ↔ t ∈ nfa.transitions) (ids : List Int) (c : Char) :
    move nfa2 ids c = move nfa ids c := by
  apply sorted_ext _ _ (move_sorted nfa2 ids c) (move_sorted nfa ids c)
  intro y
  simp only [mem_move, hmem]


theorem eps_step_congr (nfa nfa2 : NFA)
    (hmem : ∀ t, t ∈ nfa2.transitions ↔ t ∈ nfa.transitions) :
    eps_step nfa2 = eps_step nfa := by
  funext a b
  unfold eps_step
  simp only [hmem]

theorem epsilon_closure_congr (nfa nfa2 : NFA)
    (hmem : ∀ t, t ∈ nfa2.transitions ↔ t ∈ nfa.transitions) (s : NFAState) :
    epsilon_closure nfa2 s = epsilon_closure nfa s := by
  obtain ⟨r, hr, hs, hm⟩ := epsilon_closure_spec nfa s
  obtain ⟨r2, hr2, hs2, hm2⟩ := epsilon_closure_spec nfa2 s
  rw [hr, hr2]
  congr 1
  apply sorted_ext _ _ hs2 hs
  intro y
  rw [hm, hm2]
  unfold EpsReach
  rw [eps_step_congr nfa nfa2 hmem]

theorem epsilon_closure_ids_congr (nfa nfa2 : NFA) (hst : nfa2.states = nfa.states)
    (hmem : ∀ t, t ∈ nfa2.transitions ↔ t ∈ nfa.transitions) :
    ∀ (ids closure : List Int),
      epsilon_closure_ids nfa2 closure ids = epsilon_closure_ids nfa closure ids := by
  intro ids
  induction ids with
  | nil => intro closure; rfl
  | cons id ids ih =>
    intro closure
    unfold epsilon_closure_ids
    rw [state_at_congr nfa nfa2 hst]
    cases state_at nfa id with
    | none => rfl
    | some s =>
      simp only
      rw [epsilon_closure_congr nfa nfa2 hmem]
      cases epsilon_closure nfa s with
      | none => rfl
      | some sc => exact ih _

theorem step_congr (nfa nfa2 : NFA) (hst : nfa2.states = nfa.states)
    (hmem : ∀ t, t ∈ nfa2.transitions ↔ t ∈ nfa.transitions) (ids : List Int) (c : Char) :
    epsilon_closure_set nfa2 (move nfa2 ids c) = epsilon_closure_set nfa (move nfa ids c) := by
  unfold epsilon_closure_set
  rw [move_congr nfa nfa2 hmem, epsilon_closure_ids_congr nfa nfa2 hst hmem]

theorem longest_match_loop_congr (nfa nfa2 : NFA) (hst : nfa2.states = nfa.states)
    (hmem : ∀ t, t ∈ nfa2.transitions ↔ t ∈ nfa.transitions) :
    ∀ (rest : List Char) (pos : Nat) (cur : List Int) (lap : Nat) (lat : TokenType),
      longest_match_loop nfa2 rest pos cur lap lat
        = longest_match_loop nfa rest pos cur lap lat := by
  intro rest
  induction rest with
  | nil => intro pos cur lap lat; rfl
  | cons c rest ih =>
    intro pos cur lap lat
    unfold longest_match_loop
    rw [step_congr nfa nfa2 hst hmem]
    cases epsilon_closure_set nfa (move nfa cur c) with
    | none => rfl
    | some next =>
      simp only
      rw [find_accepting_congr nfa nfa2 hst]
      split_ifs
      · rfl
      · cases find_accepting nfa next with
        | none => rfl
        | some r =>
          cases r with
          | none => exact ih _ _ _ _
          | some s => exact ih _ _ _ _

theorem longest_match_congr (nfa nfa2 : NFA) (hstart : nfa2.start_state = nfa.start_state)
    (hst : nfa2.states = nfa.states)
    (hmem : ∀ t, t ∈ nfa2.transitions ↔ t ∈ nfa.transitions) (input : List Char)
    (start_pos : Nat) :
    longest_match nfa2 input start_pos = longest_match nfa input start_pos := by
  unfold longest_match
  rw [hstart, epsilon_closure_congr nfa nfa2 hmem]
  cases epsilon_closure nfa nfa.start_state with
  | none => rfl
  | some cur =>
    simp only
    rw [longest_match_loop_congr nfa nfa2 hst hmem]

/-! ## Tie-break -/

/-- C18 (deterministic tie-break). For every well-formed automaton, input and start offset
at which `longest_match` returns a non-empty text, the kind it returns is the accepting
kind of the accepting state with the lowest id in the active set reached after consuming
exactly the returned text (the set the loop of `accepts` reaches on that text). And the
result of `longest_match` does not depend on the order in which the transitions were
added: two automata with the same start state, the same state array and the same
transitions in a different order give the same result (the order of the states is fixed by
well-formedness, the state at index `i` having id `i`). -/
theorem longest_match_tie_break :
    (∀ (nfa : NFA) (input : List Char) (start_pos : Nat) (text : List Char) (ty : TokenType),
      WellFormed nfa → longest_match nfa input start_pos = some (text, ty) → text ≠ [] →
      ∃ cur active s, epsilon_closure nfa nfa.start_state = some cur ∧
        accepts_loop nfa cur text = some active ∧
        s.id ∈ active ∧ state_at nfa s.id = some s ∧ s.is_accepting = true ∧
        ty = s.accepting_type ∧
        ∀ id ∈ active, ∀ s2, state_at nfa id = some s2 → s2.is_accepting = true →
          s.id ≤ id) ∧
    (∀ (nfa nfa2 : NFA) (input : List Char) (start_pos : Nat),
      nfa2.start_state = nfa.start_state → nfa2.states = nfa.states →
      nfa2.transitions.Perm nfa.transitions →
      longest_match nfa2 input start_pos = longest_match nfa input start_pos) := by
  constructor
  · intro nfa input start_pos text ty hwf hres hne
    obtain ⟨cur, hcur⟩ := epsilon_closure_terminates nfa nfa.start_state
    rcases longest_match_cases nfa hwf input start_pos with
      ⟨hres2, _⟩ | ⟨n, ty2, _, _, hres2, hacc, _⟩
    · rw [hres2] at hres
      simp only [Option.some.injEq, Prod.mk.injEq] at hres
      exact absurd hres.1.symm hne
    · rw [hres2] at hres
      simp only [Option.some.injEq, Prod.mk.injEq] at hres
      obtain ⟨htext, hty⟩ := hres
      rw [htext] at hacc
      subst hty
      have h := hacc TokenType.UNKNOWN
      simp only [accepts, hcur, accepts_from] at h
      cases hloop : accepts_loop nfa cur text with
      | none => simp [hloop] at h
      | some active =>
        simp only [hloop] at h
        cases hfind : find_accepting nfa active with
        | none => simp [hfind] at h
        | some r =>
          cases r with
          | none => simp [hfind] at h
          | some s =>
            simp only [hfind, Option.some.injEq, Prod.mk.injEq, true_and] at h
            obtain ⟨c, cs, rfl⟩ := List.exists_cons_of_ne_nil hne
            have hsorted := accepts_loop_sorted nfa cs c cur active hloop
            obtain ⟨id, hid, hs, hsa, hmin⟩ := find_accepting_lowest nfa active s hsorted hfind
            have hsid := state_at_id nfa hwf id s hs
            rw [← hsid] at hid hs hmin
            exact ⟨cur, active, s, hcur, hloop, hid, hs, hsa, h.symm, hmin⟩
  · intro nfa nfa2 input start_pos hstart hst hperm
    exact longest_match_congr nfa nfa2 hstart hst (fun t => hperm.mem_iff) input start_pos

set_option maxRecDepth 100000 in
/-- Witness for C18: on the sample automaton with a tie, states 1 (`REGISTER`) and 2
(`IDENTIFIER`) are both active after `r`; `longest_match` returns `REGISTER`, the kind of
state 1, whichever of the two transitions was added first. -/
theorem longest_match_tie_break_witness :
    WellFormed tie_nfa ∧
    longest_match tie_nfa "r".toList 0 = some (['r'], TokenType.REGISTER) ∧
    longest_match tie_nfa_swapped "r".toList 0 = longest_match tie_nfa "r".toList 0 ∧
    ∃ cur active s, epsilon_closure tie_nfa tie_nfa.start_state = some cur ∧
      accepts_loop tie_nfa cur ['r'] = some active ∧
      s.id ∈ active ∧ state_at tie_nfa s.id = some s ∧ s.is_accepting = true ∧
      TokenType.REGISTER = s.accepting_type ∧
      ∀ id ∈ active, ∀ s2, state_at tie_nfa id = some s2 → s2.is_accepting = true →
        s.id ≤ id :=
  ⟨by decide, by decide,
    longest_match_tie_break.2 tie_nfa tie_nfa_swapped "r".toList 0 (by decide) (by decide)
      (by decide),
    longest_match_tie_break.1 tie_nfa "r".toList 0 ['r'] TokenType.REGISTER (by decide)
      (by decide) (by decide)⟩

/-! ## Token texts are slices of the input -/

theorem skippable_mono (input : List Char) (start start2 j : Nat) (h : start ≤ start2)
    (hs : Skippable input start2 j) : Skippable input start j := by
  rcases hs with h1 | h1 | ⟨i, hi1, hi2, hi3, hi4⟩
  · exact Or.inl h1
  · exact Or.inr (Or.inl h1)
  · exact Or.inr (Or.inr ⟨i, by omega, hi2, hi3, hi4⟩)

/-- Every character the whitespace loop passes over is a blank, a tab or part of a
comment. -/
theorem skip_whitespace_loop_skipped :
    ∀ (fuel : Nat) (lx lx1 : Lexer), 1 ≤ fuel → lx.input.length + 1 ≤ lx.position + fuel →
      skip_whitespace_loop fuel lx = some lx1 →
      ∀ j, lx.position ≤ j → j < lx1.position → Skippable lx.input lx.position j := by
  intro fuel
  induction fuel with
  | zero => intro lx lx1 h; omega
  | succ fuel ih =>
    intro lx lx1 _ hfuel h j hj1 hj2
    unfold skip_whitespace_loop at h
    cases hc : lx.input[lx.position]? with
    | none =>
      simp only [hc, Option.some.injEq] at h
      subst h
      omega
    | some c =>
      have hlt : lx.position < lx.input.length := (List.getElem?_eq_some.1 hc).1
      simp only [hc] at h
      by_cases hsp : (c == ' ' || c == '\t') = true
      · simp only [hsp, if_true] at h
        rcases Nat.eq_or_lt_of_le hj1 with heq | hgt
        · rw [← heq]
          unfold Skippable
          rw [hc]
          simp only [Bool.or_eq_true, beq_iff_eq] at hsp
          rcases hsp with rfl | rfl
          · exact Or.inl rfl
          · exact Or.inr (Or.inl rfl)
        · have := ih { lx with position := lx.position + 1, column := lx.column + 1 } lx1
            (by omega) (by simp only; omega) h j (by simp only; omega) hj2
          exact skippable_mono lx.input lx.position (lx.position + 1) j (by omega) this
      · by_cases hhash : (c == '#') = true
        · have hceq : c = '#' := by simpa using hhash
          subst hceq
          obtain ⟨p, hp, hle, hin, hno, hstop⟩ :=
            skip_comment_exact lx.input (lx.input.length + 1) lx.position (by omega)
              (by omega)
          have hadv : lx.position < p := by
            rcases Nat.eq_or_lt_of_le hle with heq | hlt2
            · rw [← heq, hc] at hstop
              rcases hstop with h0 | h0
              · simp at h0
              · exact absurd h0 (by decide)
            · exact hlt2
          simp only [hsp, hhash, if_true, hp, Bool.false_eq_true, if_false] at h
          by_cases hjp : j < p
          · exact Or.inr (Or.inr ⟨lx.position, le_refl _, hj1, hc,
              fun m hm1 hm2 => hno m hm1 (by omega)⟩)
          · have hfuel1 : 1 ≤ fuel := by omega
            have hpl : p ≤ lx.input.length := hin (by omega)
            have := ih { lx with position := p, column := 1 } lx1 hfuel1
              (by simp only; omega) h j (by simp only; omega) hj2
            exact skippable_mono lx.input lx.position p j hle this
        · simp only [hsp, hhash, Bool.false_eq_true, if_false, Option.some.injEq] at h
          subst h
          omega

/-- Over a well-formed automaton, a call to `next_token` that does not return
`END_OF_FILE` returns a non-empty slice of the input that starts at the cursor left by
`skip_whitespace`, and leaves the offset at the end of that slice. -/
theorem next_token_slice (lx : Lexer) (hwf : WellFormed lx.nfa) (token : Token)
    (lx2 : Lexer) (h : next_token lx = some (token, lx2))
    (hne : token.type ≠ TokenType.END_OF_FILE) :
    ∃ lx1, skip_whitespace lx = some lx1 ∧ lx.position ≤ lx1.position ∧
      token.value ≠ [] ∧
      token.value = (lx.input.drop lx1.position).take token.value.length ∧
      lx1.position + token.value.length ≤ lx.input.length ∧
      lx2.position = lx1.position + token.value.length ∧
      lx2.input = lx.input ∧ lx2.nfa = lx.nfa ∧
      ∀ j, lx.position ≤ j → j < lx1.position → Skippable lx.input lx.position j := by
  obtain ⟨lx1, h1, hin, hnfa, _, hpos, _⟩ := skip_whitespace_spec lx
  have hskipped := skip_whitespace_loop_skipped (lx.input.length + 1) lx lx1 (by omega)
    (by omega) h1
  refine ⟨lx1, h1, hpos, ?_⟩
  unfold next_token at h
  simp only [h1] at h
  cases hc : lx1.input[lx1.position]? with
  | none =>
    simp only [hc, Option.some.injEq, Prod.mk.injEq] at h
    rw [← h.1] at hne
    exact absurd rfl hne
  | some c =>
    have hlt : lx1.position < lx1.input.length := (List.getElem?_eq_some.1 hc).1
    have hone := take_one_drop lx1.input lx1.position c hc
    simp only [hc] at h
    rw [← hnfa] at hwf
    have hcases := longest_match_cases lx1.nfa hwf lx1.input lx1.position
    rw [hin] at hcases hone hlt h
    rcases hcases with ⟨hres, _⟩ | ⟨n, ty, hn1, hn2, hres, _, _⟩
    · simp only [hres] at h
      simp only [bne_self_eq_false, Bool.false_eq_true, if_false, Option.some.injEq,
        Prod.mk.injEq] at h
      obtain ⟨ht, hl⟩ := h
      subst ht
      subst hl
      refine ⟨List.cons_ne_nil _ _, hone.symm, ?_, rfl, rfl, hnfa, hskipped⟩
      show lx1.position + 1 ≤ lx.input.length
      omega
    · have hlen : ((lx.input.drop lx1.position).take n).length = n := by
        simp only [List.length_take, List.length_drop]
        omega
      simp only [hres] at h
      by_cases hty : ty = TokenType.UNKNOWN
      · subst hty
        simp only [bne_self_eq_false, Bool.false_eq_true, if_false, Option.some.injEq,
          Prod.mk.injEq] at h
        obtain ⟨ht, hl⟩ := h
        subst ht
        subst hl
        refine ⟨List.cons_ne_nil _ _, hone.symm, ?_, rfl, rfl, hnfa, hskipped⟩
        show lx1.position + 1 ≤ lx.input.length
        omega
      · have hb : (ty != TokenType.UNKNOWN) = true := by simpa using hty
        simp only [hb, if_true, Option.some.injEq, Prod.mk.injEq] at h
        obtain ⟨ht, hl⟩ := h
        subst ht
        subst hl
        refine ⟨?_, ?_, ?_, ?_, ?_, ?_, hskipped⟩
        · intro hnil
          have hnil2 : (List.take n (List.drop lx1.position lx.input)) = [] := hnil
          rw [hnil2] at hlen
          simp at hlen
          omega
        · show List.take n (List.drop lx1.position lx.input)
            = List.take (List.take n (List.drop lx1.position lx.input)).length
                (List.drop lx1.position lx.input)
          rw [hlen]
        · show lx1.position + (List.take n (List.drop lx1.position lx.input)).length
            ≤ lx.input.length
          rw [hlen]
          omega
        · split_ifs <;> rfl
        · split_ifs <;> rfl
        · split_ifs <;> exact hnfa

/-- C21 (token text is the source slice). For every lexer state over a well-formed
automaton (the automaton of `build_nfa` is one), whatever the input and the cursor: if
`next_token` returns a token other than `END_OF_FILE`, then with `p` the offset left by
`skip_whitespace` the token text is non-empty and equals `input[p, p + len)`, the offset
after the call is exactly `p + len`, and every character between the offset before the
call and `p` is a blank, a tab or part of a `#` comment. Hence for two successive calls
the second text is a slice that starts at or after the end of the first, with only
blanks, tabs and comment characters in between. -/
theorem next_token_text_is_slice :
    (∀ (lx : Lexer) (token : Token) (lx2 : Lexer), WellFormed lx.nfa →
      next_token lx = some (token, lx2) → token.type ≠ TokenType.END_OF_FILE →
      ∃ lx1, skip_whitespace lx = some lx1 ∧ lx.position ≤ lx1.position ∧
        token.value ≠ [] ∧
        token.value = (lx.input.drop lx1.position).take token.value.length ∧
        lx1.position + token.value.length ≤ lx.input.length ∧
        lx2.position = lx1.position + token.value.length ∧
        ∀ j, lx.position ≤ j → j < lx1.position → Skippable lx.input lx.position j) ∧
    (∀ (lx : Lexer) (t1 t2 : Token) (lxa lxb : Lexer), WellFormed lx.nfa →
      next_token lx = some (t1, lxa) → next_token lxa = some (t2, lxb) →
      t1.type ≠ TokenType.END_OF_FILE → t2.type ≠ TokenType.END_OF_FILE →
      ∃ p1 p2, lx.position ≤ p1 ∧
        t1.value = (lx.input.drop p1).take t1.value.length ∧
        p1 + t1.value.length ≤ p2 ∧
        t2.value = (lx.input.drop p2).take t2.value.length ∧
        p2 + t2.value.length ≤ lx.input.length ∧
        ∀ j, p1 + t1.value.length ≤ j → j < p2 →
          Skippable lx.input (p1 + t1.value.length) j) := by
  constructor
  · intro lx token lx2 hwf h hne
    obtain ⟨lx1, h1, h2, h3, h4, h5, h6, _, _, h9⟩ := next_token_slice lx hwf token lx2 h hne
    exact ⟨lx1, h1, h2, h3, h4, h5, h6, h9⟩
  · intro lx t1 t2 lxa lxb hwf ha hb hne1 hne2
    obtain ⟨lx1, _, h2, _, h4, _, h6, hin, hnfa, _⟩ := next_token_slice lx hwf t1 lxa ha hne1
    obtain ⟨lx3, _, k2, _, k4, k5, _, _, _, k9⟩ :=
      next_token_slice lxa (by rw [hnfa]; exact hwf) t2 lxb hb hne2
    rw [hin, h6] at k9
    rw [h6] at k2
    rw [hin] at k4 k5
    exact ⟨lx1.position, lx3.position, h2, h4, k2, k4, k5, k9⟩

set_option maxRecDepth 100000 in
/-- Witness for C21: on `" ( ,"` the first call skips one blank and returns `(` from
offset 1, the second skips one blank and returns `,` from offset 3. -/
theorem next_token_text_is_slice_witness :
    WellFormed (Lexer.new " ( ,".toList).nfa ∧
    next_token (Lexer.new " ( ,".toList) = some
      (⟨TokenType.LPAREN, ['('], 1, 2⟩,
       { Lexer.new " ( ,".toList with position := 2, column := 3 }) ∧
    next_token { Lexer.new " ( ,".toList with position := 2, column := 3 } = some
      (⟨TokenType.COMMA, [','], 1, 4⟩,
       { Lexer.new " ( ,".toList with position := 4, column := 5 }) ∧
    ∃ p1 p2, (Lexer.new " ( ,".toList).position ≤ p1 ∧
      ['('] = (" ( ,".toList.drop p1).take 1 ∧ p1 + 1 ≤ p2 ∧
      [','] = (" ( ,".toList.drop p2).take 1 ∧ p2 + 1 ≤ " ( ,".toList.length ∧
      ∀ j, p1 + 1 ≤ j → j < p2 → Skippable " ( ,".toList (p1 + 1) j :=
  ⟨build_nfa_wellFormed, by decide, by decide,
    next_token_text_is_slice.2 (Lexer.new " ( ,".toList)
      ⟨TokenType.LPAREN, ['('], 1, 2⟩ ⟨TokenType.COMMA, [','], 1, 4⟩
      { Lexer.new " ( ,".toList with position := 2, column := 3 }
      { Lexer.new " ( ,".toList with position := 4, column := 5 }
      build_nfa_wellFormed (by decide) (by decide) (by decide) (by decide)⟩

/-! ## `accepts` and `longest_match` on a whole string -/

/-- C22 (accepts agrees with longest_match). For every well-formed automaton, every
non-empty input `s`, every initial value of the out-parameter and every kind `k`:
`accepts(s, kind)` returns `true` with the kind set to `k` if and only if
`longest_match(s, 0)` returns `(s, k)`. -/
theorem accepts_iff_longest_match (nfa : NFA) (hwf : WellFormed nfa) (s : List Char)
    (hs : s ≠ []) (tt k : TokenType) :
    accepts nfa s tt = some (true, k) ↔ longest_match nfa s 0 = some (s, k) := by
  have hpos : 1 ≤ s.length := List.length_pos.2 hs
  rcases longest_match_cases nfa hwf s 0 with
    ⟨hres, hrej⟩ | ⟨n, ty, hn1, hn2, hres, hacc, hrej⟩
  · simp only [List.drop_zero, Nat.sub_zero] at hrej
    have hall := hrej s.length hpos (le_refl _) tt
    rw [List.take_length] at hall
    constructor
    · intro h
      rw [hall] at h
      simp at h
    · intro h
      rw [hres] at h
      simp only [Option.some.injEq, Prod.mk.injEq] at h
      exact absurd h.1.symm hs
  · simp only [List.drop_zero, Nat.sub_zero] at hrej hacc hres hn2
    constructor
    · intro h
      have hn : n = s.length := by
        by_contra hne
        have hall := hrej s.length (by omega) (le_refl _) tt
        rw [List.take_length] at hall
        rw [hall] at h
        simp at h
      subst hn
      rw [List.take_length] at hres hacc
      rw [hacc tt] at h
      simp only [Option.some.injEq, Prod.mk.injEq, true_and] at h
      rw [hres, h]
    · intro h
      rw [hres] at h
      simp only [Option.some.injEq, Prod.mk.injEq] at h
      rw [← h.1, ← h.2]
      exact hacc tt

/-- Witness for C22: on the sample automaton for `a+` the string `aa` is accepted with
kind `IDENTIFIER` and is the longest match from offset 0 with that kind. -/
theorem accepts_iff_longest_match_witness :
    WellFormed a_plus_nfa ∧ "aa".toList ≠ [] ∧
    accepts a_plus_nfa "aa".toList TokenType.UNKNOWN = some (true, TokenType.IDENTIFIER) ∧
    longest_match a_plus_nfa "aa".toList 0 = some ("aa".toList, TokenType.IDENTIFIER) :=
  ⟨by decide, by decide, by decide,
    (accepts_iff_longest_match a_plus_nfa (by decide) "aa".toList (by decide)
      TokenType.UNKNOWN TokenType.IDENTIFIER).1 (by decide)⟩

/-! ## The kind test of `next_token` -/

set_option maxRecDepth 100000 in
/-- C24 (kind test coincides with match test). In the automaton of `build_nfa` no
accepting state has kind `UNKNOWN` or `END_OF_FILE`; for every input and offset
`longest_match` returns the kind `UNKNOWN` exactly when it returns the empty text; and for
every input and cursor `next_token` returns a token that has a non-empty text unless it is
`END_OF_FILE`, and that carries the text and kind of the match whenever `longest_match`
returns a non-empty text at the cursor left by `skip_whitespace`. -/
theorem next_token_kind_test :
    (∀ s ∈ (build_nfa NFA.new).states, s.is_accepting = true →
      s.accepting_type ≠ TokenType.UNKNOWN ∧ s.accepting_type ≠ TokenType.END_OF_FILE) ∧
    (∀ (input : List Char) (start_pos : Nat),
      ∃ text ty, longest_match (build_nfa NFA.new) input start_pos = some (text, ty) ∧
        (ty = TokenType.UNKNOWN ↔ text = [])) ∧
    (∀ (input : List Char) (position line column : Nat),
      ∃ lx1 token lx2,
        skip_whitespace ⟨input, position, line, column, build_nfa NFA.new⟩ = some lx1 ∧
        next_token ⟨input, position, line, column, build_nfa NFA.new⟩ = some (token, lx2) ∧
        (token.type ≠ TokenType.END_OF_FILE → token.value ≠ []) ∧
        (∀ text ty, lx1.position < lx1.input.length →
          longest_match (build_nfa NFA.new) lx1.input lx1.position = some (text, ty) →
          text ≠ [] → token.value = text ∧ token.type = ty)) := by
  refine ⟨by decide, ?_, ?_⟩
  · intro input start_pos
    rcases build_nfa_longest_match_cases input start_pos with
      ⟨hres, _⟩ | ⟨c, ty, _, hres, _, hk⟩
    · exact ⟨[], TokenType.UNKNOWN, hres, by simp⟩
    · refine ⟨[c], ty, hres, ?_⟩
      constructor
      · intro hu
        rw [hu] at hk
        simp at hk
      · intro h
        simp at h
  · intro input position line column
    obtain ⟨lx1, h1, _, hnfa, _, _, _⟩ :=
      skip_whitespace_spec ⟨input, position, line, column, build_nfa NFA.new⟩
    simp only at hnfa
    unfold next_token
    simp only [h1]
    cases hc : lx1.input[lx1.position]? with
    | none =>
      refine ⟨lx1, _, lx1, rfl, rfl, fun h => absurd rfl h, ?_⟩
      intro text ty hlt
      have := List.getElem?_eq_none_iff.1 hc
      omega
    | some c =>
      simp only [hnfa]
      rcases build_nfa_longest_match_cases lx1.input lx1.position with
        ⟨hres, _⟩ | ⟨c2, ty, _, hres, _, hk⟩
      · simp only [hres]
        refine ⟨lx1, _, _, rfl, rfl, fun _ => by simp, ?_⟩
        intro text ty _ h hne
        rw [hres] at h
        simp only [Option.some.injEq, Prod.mk.injEq] at h
        exact absurd h.1.symm hne
      · have hne : ty ≠ TokenType.UNKNOWN := by
          intro hu
          rw [hu] at hk
          simp at hk
        have hb : (ty != TokenType.UNKNOWN) = true := by simpa using hne
        simp only [hres, hb, if_true]
        refine ⟨lx1, _, _, rfl, rfl, fun _ => by simp, ?_⟩
        intro text ty2 _ h _
        rw [hres] at h
        simp only [Option.some.injEq, Prod.mk.injEq] at h
        exact ⟨h.1, h.2⟩

/-! ## The set closure as a closure operator -/

theorem epsReach_valid (nfa : NFA) (hwf : WellFormed nfa) (a b : Int)
    (h : EpsReach nfa a b) (ha : ValidId nfa a) : ValidId nfa b := by
  induction h with
  | refl => exact ha
  | tail _ hstep _ =>
    obtain ⟨t, ht, _, _, hto⟩ := hstep
    rw [← hto]
    exact validId_target nfa hwf t ht

theorem epsReach_trans (nfa : NFA) (a b c : Int) (h1 : EpsReach nfa a b)
    (h2 : EpsReach nfa b c) : EpsReach nfa a c :=
  Relation.ReflTransGen.trans h1 h2

/-- On valid ids the loop of the set closure returns the strictly increasing list of the
accumulated ids together with everything reachable from the given ids by epsilon
transitions. -/
theorem epsilon_closure_ids_spec (nfa : NFA) (hwf : WellFormed nfa) :
    ∀ (ids closure : List Int), (∀ id ∈ ids, ValidId nfa id) → closure.Sorted (· < ·) →
      ∃ r, epsilon_closure_ids nfa closure ids = some r ∧ r.Sorted (· < ·) ∧
        ∀ y, y ∈ r ↔ y ∈ closure ∨ ∃ id ∈ ids, EpsReach nfa id y := by
  intro ids
  induction ids with
  | nil =>
    intro closure _ hs
    exact ⟨closure, rfl, hs, by simp⟩
  | cons id ids ih =>
    intro closure hids hs
    obtain ⟨s, hst⟩ := hids id (List.mem_cons_self _ _)
    obtain ⟨sc, hsc, _, hmem⟩ := epsilon_closure_spec nfa s
    rw [state_at_id nfa hwf id s hst] at hmem
    obtain ⟨r, hr, hrs, hrm⟩ := ih (set_insert_all sc closure)
      (fun i hi => hids i (List.mem_cons_of_mem _ hi)) (sorted_set_insert_all sc closure hs)
    refine ⟨r, ?_, hrs, ?_⟩
    · unfold epsilon_closure_ids
      simp only [hst, hsc]
      exact hr
    · intro y
      rw [hrm, mem_set_insert_all, hmem]
      constructor
      · rintro ((h | h) | ⟨i, hi, h⟩)
        · exact Or.inr ⟨id, List.mem_cons_self _ _, h⟩
        · exact Or.inl h
        · exact Or.inr ⟨i, List.mem_cons_of_mem _ hi, h⟩
      · rintro (h | ⟨i, hi, h⟩)
        · exact Or.inl (Or.inr h)
        · rcases List.mem_cons.1 hi with rfl | hi
          · exact Or.inl (Or.inl h)
          · exact Or.inr ⟨i, hi, h⟩

/-- On a set of valid ids the set closure returns the strictly increasing list of the ids
reachable from a member of the set by zero or more epsilon transitions. -/
theorem epsilon_closure_set_spec (nfa : NFA) (hwf : WellFormed nfa) (ids : List Int)
    (hids : ∀ id ∈ ids, ValidId nfa id) :
    ∃ r, epsilon_closure_set nfa ids = some r ∧ r.Sorted (· < ·) ∧
      ∀ y, y ∈ r ↔ ∃ id ∈ ids, EpsReach nfa id y := by
  obtain ⟨r, hr, hs, hm⟩ := epsilon_closure_ids_spec nfa hwf ids [] hids List.sorted_nil
  exact ⟨r, hr, hs, fun y => by rw [hm]; simp⟩

/-- C23 (closure is a closure operator). For every well-formed automaton and all sets `S`
and `T` of state ids (ids that are indices of the state array), the set overload of
`epsilon_closure` returns on both and is extensive (`S ⊆ closure(S)`), monotone (`S ⊆ T`
implies `closure(S) ⊆ closure(T)`) and idempotent (`closure(closure(S)) = closure(S)`),
and it maps the empty set to the empty set. -/
theorem epsilon_closure_set_closure_operator (nfa : NFA) (hwf : WellFormed nfa)
    (S T : List Int) (hS : ∀ id ∈ S, ValidId nfa id) (hT : ∀ id ∈ T, ValidId nfa id) :
    ∃ cS cT, epsilon_closure_set nfa S = some cS ∧ epsilon_closure_set nfa T = some cT ∧
      (∀ id ∈ S, id ∈ cS) ∧
      ((∀ id ∈ S, id ∈ T) → ∀ id ∈ cS, id ∈ cT) ∧
      epsilon_closure_set nfa cS = some cS ∧
      epsilon_closure_set nfa [] = some [] := by
  obtain ⟨cS, hcS, hsS, hmS⟩ := epsilon_closure_set_spec nfa hwf S hS
  obtain ⟨cT, hcT, _, hmT⟩ := epsilon_closure_set_spec nfa hwf T hT
  have hvalid : ∀ id ∈ cS, ValidId nfa id := by
    intro y hy
    obtain ⟨id, hid, hreach⟩ := (hmS y).1 hy
    exact epsReach_valid nfa hwf id y hreach (hS id hid)
  obtain ⟨cc, hcc, hsc, hmc⟩ := epsilon_closure_set_spec nfa hwf cS hvalid
  refine ⟨cS, cT, hcS, hcT, ?_, ?_, ?_, rfl⟩
  · intro id hid
    exact (hmS id).2 ⟨id, hid, Relation.ReflTransGen.refl⟩
  · intro hsub y hy
    obtain ⟨id, hid, hreach⟩ := (hmS y).1 hy
    exact (hmT y).2 ⟨id, hsub id hid, hreach⟩
  · rw [hcc]
    congr 1
    apply sorted_ext _ _ hsc hsS
    intro y
    rw [hmc]
    constructor
    · rintro ⟨m, hm, hreach⟩
      obtain ⟨id, hid, hreach0⟩ := (hmS m).1 hm
      exact (hmS y).2 ⟨id, hid, epsReach_trans nfa id m y hreach0 hreach⟩
    · intro hy
      exact ⟨y, hy, Relation.ReflTransGen.refl⟩

set_option maxRecDepth 100000 in
/-- Witness for C23: on the sample automaton with the epsilon cycle `0 → 1 → 2 → 0`, the
closure of `{1}` is `{0, 1, 2}`, the closure of `{1, 3}` is `{0, 1, 2, 3}`, and closing
`{0, 1, 2}` again changes nothing. -/
theorem epsilon_closure_set_closure_operator_witness :
    WellFormed eps_cycle_nfa ∧
    epsilon_closure_set eps_cycle_nfa [1] = some [0, 1, 2] ∧
    epsilon_closure_set eps_cycle_nfa [1, 3] = some [0, 1, 2, 3] ∧
    epsilon_closure_set eps_cycle_nfa [0, 1, 2] = some [0, 1, 2] ∧
    ∃ cS cT, epsilon_closure_set eps_cycle_nfa [1] = some cS ∧
      epsilon_closure_set eps_cycle_nfa [1, 3] = some cT ∧
      (∀ id ∈ ([1] : List Int), id ∈ cS) ∧
      ((∀ id ∈ ([1] : List Int), id ∈ ([1, 3] : List Int)) → ∀ id ∈ cS, id ∈ cT) ∧
      epsilon_closure_set eps_cycle_nfa cS = some cS ∧
      epsilon_closure_set eps_cycle_nfa [] = some [] :=
  ⟨by decide, by decide, by decide, by decide,
    epsilon_closure_set_closure_operator eps_cycle_nfa (by decide) [1] [1, 3]
      (by
        intro id hid
        rw [List.mem_singleton] at hid
        subst hid
        exact ⟨⟨1, false, TokenType.UNKNOWN⟩, by decide⟩)
      (by
        intro id hid
        simp only [List.mem_cons, List.mem_singleton, List.not_mem_nil, or_false] at hid
        rcases hid with rfl | rfl
        · exact ⟨⟨1, false, TokenType.UNKNOWN⟩, by decide⟩
        · exact ⟨⟨3, true, TokenType.IDENTIFIER⟩, by decide⟩)⟩

end NFALexer
